import Mathlib

/-! Shallow embedding of the chroma-ls language-server core (src/color.rs,
src/document.rs, src/main.rs): the incremental line-buffer document model,
the hex-color annotation extractor working on UTF-16 code units, the
UTF-16-column to byte-offset translator, and the server's regex-based
`document_color` path, together with theorems checking the specification's
claims against this embedding. Rust strings are modelled as `List Char`
(Unicode scalar values), UTF-16 code units as `Nat` below 2^16, and `f32`
color channels (always an 8-bit value divided by 255.0) as exact rationals.
Operations that can panic in Rust return `Option` and yield `none` on the
panicking inputs. -/

namespace ChromaLs

/-- A 0-based line / UTF-16-column position, mirroring `lsp_types::Position`. -/
structure Pos where
  line : Nat
  character : Nat
deriving DecidableEq

/-- A half-open position range mirroring `lsp_types::Range`; the field `stop`
renders Rust's `end`, which is a keyword in Lean. -/
structure LspRange where
  start : Pos
  stop : Pos
deriving DecidableEq

/-- RGBA color, mirroring `lsp_types::Color`. Each Rust channel is an 8-bit
value divided by 255.0; we keep the exact rational quotient. -/
structure Color where
  red : ℚ
  green : ℚ
  blue : ℚ
  alpha : ℚ
deriving DecidableEq

/-- One extracted annotation, mirroring `lsp_types::ColorInformation`. -/
structure ColorInformation where
  range : LspRange
  color : Color
deriving DecidableEq

/-- A document line with its cached annotations (`document.rs`, `struct Line`). -/
structure Line where
  text : List Char
  colors : List ColorInformation
deriving DecidableEq

/-- The document: an ordered sequence of lines (`document.rs`, `struct Document`). -/
structure Document where
  lines : List Line
deriving DecidableEq

/-- One editor change event, mirroring `lsp_types::TextDocumentContentChangeEvent`
(the unused `range_length` field is omitted): `range = none` is a full replace,
`range = some r` a range replace. -/
structure TextDocumentContentChangeEvent where
  range : Option LspRange
  text : List Char
deriving DecidableEq

/-- `Line::default()`: empty text, no cached colors. -/
def emptyLine : Line := ⟨[], []⟩

/-! ## Unicode encoding helpers -/

/-- Number of bytes of the UTF-8 encoding of one scalar (Rust `char::len_utf8`). -/
def utf8Len (c : Char) : Nat :=
  if c.toNat < 0x80 then 1
  else if c.toNat < 0x800 then 2
  else if c.toNat < 0x10000 then 3
  else 4

/-- Number of UTF-16 code units of one scalar (Rust `char::len_utf16`). -/
def utf16Len (c : Char) : Nat :=
  if c.toNat < 0x10000 then 1 else 2

/-- UTF-16 code units of one scalar: itself for the BMP, a surrogate pair for
supplementary-plane scalars (Rust `char::encode_utf16`). -/
def utf16EncodeChar (c : Char) : List Nat :=
  if c.toNat < 0x10000 then [c.toNat]
  else
    [0xD800 + (c.toNat - 0x10000) / 0x400, 0xDC00 + (c.toNat - 0x10000) % 0x400]

/-- UTF-16 code units of a string (Rust `str::encode_utf16`). -/
def utf16Encode (s : List Char) : List Nat :=
  (s.map utf16EncodeChar).flatten

/-- Total number of UTF-16 code units of a string. -/
def utf16Length (s : List Char) : Nat :=
  (utf16Encode s).length

/-- Total number of UTF-8 bytes of a string (Rust `str::len`). -/
def byteLen (s : List Char) : Nat :=
  (s.map utf8Len).sum

/-! ## The annotation extractor (`color.rs`, `parse_line_colors`) -/

/-- `char::to_digit(16)` on the character with the given code: hex digit value
for `0-9`, `a-f`, `A-F`, otherwise `none`. -/
def toHexDigit (u : Nat) : Option Nat :=
  if 48 ≤ u ∧ u ≤ 57 then some (u - 48)
  else if 97 ≤ u ∧ u ≤ 102 then some (u - 97 + 10)
  else if 65 ≤ u ∧ u ≤ 70 then some (u - 65 + 10)
  else none

/-- The inner digit loop of `parse_line_colors`: consume up to `n` hex-digit
code units from the front of the list. Returns the digit values, the consumed
units and the remaining units. Mirroring the Rust code, a unit is first passed
through `char::from_u32(..).unwrap()`, which panics (modelled as `none`) on an
unpaired surrogate code unit while a digit slot is still free. -/
def parseDigits : Nat → List Nat → Option (List Nat × List Nat × List Nat)
  | 0, rest => some ([], [], rest)
  | _ + 1, [] => some ([], [], [])
  | n + 1, u :: rest =>
    if 0xD800 ≤ u ∧ u < 0xE000 then none
    else
      match toHexDigit u with
      | none => some ([], [], u :: rest)
      | some d =>
        match parseDigits n rest with
        | none => none
        | some (ds, cs, r) => some (d :: ds, u :: cs, r)

/-- `color_from_digits`: build the color from the (zero-padded) digit array and
the final digit count; alpha comes from digits 6-7 only for an 8-digit match. -/
def colorFromDigits (ds : List Nat) (len : Nat) : Color :=
  { red := ((ds.getD 0 0 * 16 + ds.getD 1 0 : Nat) : ℚ) / 255
    green := ((ds.getD 2 0 * 16 + ds.getD 3 0 : Nat) : ℚ) / 255
    blue := ((ds.getD 4 0 * 16 + ds.getD 5 0 : Nat) : ℚ) / 255
    alpha := if len = 8 then ((ds.getD 6 0 * 16 + ds.getD 7 0 : Nat) : ℚ) / 255 else 1 }

/-- The outer `while` loop of `parse_line_colors` over the UTF-16 units, with
`i` the absolute unit index of the list head. The first argument after the
line index is fuel; every loop iteration consumes at least one unit, so fuel
`units.length + 1` (as supplied by `parse_line_colors`) never runs out. On a
`#` (unit 35) up to 8 hex digits are consumed; fewer than 6 is no match, and
on exactly 7 the scan falls back to 6 digits and puts the 7th digit back for
the next iteration (`length = 6; i -= 1` in the source). -/
def scanAux (lineIdx : Nat) : Nat → List Nat → Nat → Option (List ColorInformation)
  | 0, _, _ => none
  | _ + 1, [], _ => some []
  | fuel + 1, u :: rest, i =>
    if u = 35 then
      match parseDigits 8 rest with
      | none => none
      | some (ds, cs, r) =>
        if ds.length < 6 then
          scanAux lineIdx fuel r (i + 1 + ds.length)
        else
          let len := if ds.length = 7 then 6 else ds.length
          let rem := if ds.length = 7 then cs.getLastD 0 :: r else r
          let iFin := i + 1 + len
          let ci : ColorInformation :=
            { range := { start := { line := lineIdx, character := iFin - (1 + len) }
                         stop := { line := lineIdx, character := iFin } }
              color := colorFromDigits ds len }
          match scanAux lineIdx fuel rem iFin with
          | none => none
          | some cis => some (ci :: cis)
    else
      scanAux lineIdx fuel rest (i + 1)

/-- `parse_line_colors(line, line_idx)` on the UTF-16 units of the line;
`none` models the panic on `char::from_u32(..).unwrap()` of a surrogate. -/
def parse_line_colors (units : List Nat) (lineIdx : Nat) : Option (List ColorInformation) :=
  scanAux lineIdx (units.length + 1) units 0

/-! ## The offset translator (`document.rs`, `utf16_to_byte_index`) -/

/-- The `char_indices` loop of `utf16_to_byte_index`: `count` is the UTF-16
units consumed so far, `byteAcc` the byte index of the list head; return the
byte index once `count` equals the target, else the total byte length. -/
def u16ToByteAux (target : Nat) : List Char → Nat → Nat → Nat
  | [], _, byteAcc => byteAcc
  | c :: cs, count, byteAcc =>
    if count = target then byteAcc
    else u16ToByteAux target cs (count + utf16Len c) (byteAcc + utf8Len c)

/-- `utf16_to_byte_index(line, utf16_idx)`. -/
def utf16_to_byte_index (line : List Char) (utf16Idx : Nat) : Nat :=
  u16ToByteAux utf16Idx line 0 0

/-- Byte-slicing `&text[..n]` for `n` a char boundary: the longest prefix
whose UTF-8 length fits in `n` bytes. -/
def takeBytes : Nat → List Char → List Char
  | _, [] => []
  | n, c :: cs => if utf8Len c ≤ n then c :: takeBytes (n - utf8Len c) cs else []

/-- Byte-slicing `&text[n..]` for `n` a char boundary. -/
def dropBytes : Nat → List Char → List Char
  | _, [] => []
  | n, c :: cs => if utf8Len c ≤ n then dropBytes (n - utf8Len c) cs else c :: cs

/-! ## Line splitting and joining (`str::lines`, `Display for Document`) -/

/-- Split on `'\n'` (like `str::split('\n')`): always at least one piece, one
more piece per newline, pieces do not contain `'\n'`. -/
def splitLines : List Char → List (List Char)
  | [] => [[]]
  | c :: cs =>
    if c = '\n' then [] :: splitLines cs
    else
      match splitLines cs with
      | [] => [[c]]
      | p :: ps => (c :: p) :: ps

/-- Remove one trailing `'\r'` if present (the `\r\n` handling of `str::lines`). -/
def stripCR (p : List Char) : List Char :=
  if p.getLast? = some '\r' then p.dropLast else p

/-- From the `'\n'`-split pieces to the lines `str::lines` yields: every piece
but the last was terminated by `'\n'` and loses one trailing `'\r'`; a final
empty piece (the optional final line terminator) is dropped. -/
def rustLinesAux : List (List Char) → List (List Char)
  | [] => []
  | [p] => if p = [] then [] else [p]
  | p :: ps => stripCR p :: rustLinesAux ps

/-- `str::lines` on a string. -/
def rustLines (t : List Char) : List (List Char) :=
  rustLinesAux (splitLines t)

/-- Join lines with `'\n'` as done by `impl Display for Document`. -/
def joinLines : List (List Char) → List Char
  | [] => []
  | [t] => t
  | t :: ts => t ++ '\n' :: joinLines ts

/-! ## Document construction and queries (`document.rs`) -/

/-- Parse a block of line texts into `Line`s, the first at line index `k`
(the `enumerate().map(..)` of `From<&str>` and the reparse loop of `edit`);
`none` if extraction panics on some line. -/
def parseLines (k : Nat) : List (List Char) → Option (List Line)
  | [] => some []
  | t :: ts =>
    match parse_line_colors (utf16Encode t) k, parseLines (k + 1) ts with
    | some cs, some ls => some (⟨t, cs⟩ :: ls)
    | _, _ => none

/-- `Document::from(&str)`: split into lines and extract annotations per line. -/
def Document.fromStr (s : List Char) : Option Document :=
  (parseLines 0 (rustLines s)).map Document.mk

/-- `Document::get_colors`: concatenation of all cached per-line annotations. -/
def Document.get_colors (doc : Document) : List ColorInformation :=
  (doc.lines.map Line.colors).flatten

/-- The document text as rendered by `impl Display for Document`: the line
texts joined with `'\n'`. -/
def Document.toText (doc : Document) : List Char :=
  joinLines (doc.lines.map Line.text)

/-- The padding loop of `Document::edit`: push default lines until `endLine`
is a valid index. -/
def paddedLines (doc : Document) (endLine : Nat) : List Line :=
  doc.lines ++ List.replicate (endLine + 1 - doc.lines.length) emptyLine

/-- `.lines()` applied to an edit's replacement text, plus one extra empty
line when the text ends with `'\n'` (since `str::lines` drops a final
terminator). -/
def rustTextLines (txt : List Char) : List (List Char) :=
  rustLines txt ++ (if txt.getLast? = some '\n' then [[]] else [])

/-- Append `suf` to the last element of a nonempty list of line texts. -/
def appendToLast (suf : List Char) : List (List Char) → List (List Char)
  | [] => []
  | [t] => [t ++ suf]
  | t :: ts => t :: appendToLast suf ts

/-- Boundary merging of `Document::edit`: with no candidate lines the edit
collapses to `pre ++ suf`; otherwise `pre` is prepended to the first candidate
and `suf` appended to the last. -/
def mergeTexts (pre suf : List Char) : List (List Char) → List (List Char)
  | [] => [pre ++ suf]
  | t :: ts => appendToLast suf ((pre ++ t) :: ts)

/-- The replacement line texts a range edit produces: prefix of the start line
before the translated start column, suffix of the end line from the translated
end column, merged around the split replacement text. Uses `getD`; `edit`
itself guards the start-line access, and the end line is always in range after
padding. -/
def editNewTexts (doc : Document) (r : LspRange) (txt : List Char) : List (List Char) :=
  let padded := paddedLines doc r.stop.line
  let startText := (padded.getD r.start.line emptyLine).text
  let endText := (padded.getD r.stop.line emptyLine).text
  let startByte := utf16_to_byte_index startText r.start.character
  let endByte := utf16_to_byte_index endText r.stop.character
  let pre := takeBytes (min startByte (byteLen startText)) startText
  let suf := dropBytes (min endByte (byteLen endText)) endText
  mergeTexts pre suf (rustTextLines txt)

/-- The per-annotation line renumbering of `Document::edit`: both line numbers
move by `delta` (an `isize` added to a `u32` in the source; under the cache
invariant the sum is nonnegative and small, so plain `Int.toNat` is exact). -/
def shiftColor (delta : Int) (ci : ColorInformation) : ColorInformation :=
  { ci with
    range := { start := { line := ((ci.range.start.line : Int) + delta).toNat
                          character := ci.range.start.character }
               stop := { line := ((ci.range.stop.line : Int) + delta).toNat
                         character := ci.range.stop.character } } }

/-- Renumber every cached annotation of one untouched line. -/
def shiftLineColors (delta : Int) (l : Line) : Line :=
  { l with colors := l.colors.map (shiftColor delta) }

/-- Replace both line fields of an annotation (proof infrastructure: the
extractor uses its line-index argument only to fill these fields). -/
def setLineIdx (idx : Nat) (ci : ColorInformation) : ColorInformation :=
  { ci with
    range := { start := { line := idx, character := ci.range.start.character }
               stop := { line := idx, character := ci.range.stop.character } } }

/-- `Document::edit`. A full replace reloads like `Document::from`. A range
replace pads to the end line, reads the boundary lines (panicking, i.e.
`none`, when `start_line` is out of bounds even after padding), re-extracts
the merged replacement lines (panicking on a surrogate after `#`), renumbers
the annotations of every line after the replaced span by
`new count - replaced count` when that differs from zero, and splices. An
inverted range (`end_line < start_line`) that survives the start-line access
panics on the `replaced_line_count` underflow (release builds panic slightly
later, on the inverted splice), so it is likewise `none`. -/
def Document.edit (doc : Document) (change : TextDocumentContentChangeEvent) :
    Option Document :=
  match change.range with
  | none => (parseLines 0 (rustLines change.text)).map Document.mk
  | some r =>
    let startLine := r.start.line
    let endLine := r.stop.line
    let padded := paddedLines doc endLine
    if startLine < padded.length then
      match parseLines startLine (editNewTexts doc r change.text) with
      | none => none
      | some newLines =>
        if endLine < startLine then none
        else
          let replaced := endLine - startLine + 1
          let delta : Int := (newLines.length : Int) - (replaced : Int)
          let tail := padded.drop (startLine + replaced)
          some ⟨padded.take startLine ++ newLines ++
            (if delta = 0 then tail else tail.map (shiftLineColors delta))⟩
    else none

/-- Apply a sequence of edits in order, stopping at the first panic. -/
def applyEdits (doc : Document) : List TextDocumentContentChangeEvent → Option Document
  | [] => some doc
  | c :: cs =>
    match doc.edit c with
    | none => none
    | some d => applyEdits d cs

/-- Load an initial text and apply a sequence of edits in order. -/
def loadAndApply (t : List Char) (es : List TextDocumentContentChangeEvent) :
    Option Document :=
  (Document.fromStr t).bind (fun d => applyEdits d es)

/-! ## The server's live color path (`main.rs`) -/

/-- `[0-9A-Fa-f]`, the character class of the server's regex. -/
def isAsciiHexDigit (c : Char) : Bool :=
  (decide (('0' : Char) ≤ c) && decide (c ≤ ('9' : Char))) ||
  (decide (('a' : Char) ≤ c) && decide (c ≤ ('f' : Char))) ||
  (decide (('A' : Char) ≤ c) && decide (c ≤ ('F' : Char)))

/-- `hex_to_color` from `main.rs`: only strings of exactly 6 or 8 hex digits
decode; a pair of digits becomes an 8-bit channel divided by 255.0, with
alpha 255 for the 6-digit form. -/
def hex_to_color : List Char → Option Color
  | [r1, r2, g1, g2, b1, b2] =>
    match toHexDigit r1.toNat, toHexDigit r2.toNat, toHexDigit g1.toNat,
        toHexDigit g2.toNat, toHexDigit b1.toNat, toHexDigit b2.toNat with
    | some ra, some rb, some ga, some gb, some ba, some bb =>
      some ⟨((ra * 16 + rb : Nat) : ℚ) / 255, ((ga * 16 + gb : Nat) : ℚ) / 255,
        ((ba * 16 + bb : Nat) : ℚ) / 255, ((255 : Nat) : ℚ) / 255⟩
    | _, _, _, _, _, _ => none
  | [r1, r2, g1, g2, b1, b2, a1, a2] =>
    match toHexDigit r1.toNat, toHexDigit r2.toNat, toHexDigit g1.toNat,
        toHexDigit g2.toNat, toHexDigit b1.toNat, toHexDigit b2.toNat,
        toHexDigit a1.toNat, toHexDigit a2.toNat with
    | some ra, some rb, some ga, some gb, some ba, some bb, some aa, some ab =>
      some ⟨((ra * 16 + rb : Nat) : ℚ) / 255, ((ga * 16 + gb : Nat) : ℚ) / 255,
        ((ba * 16 + bb : Nat) : ℚ) / 255, ((aa * 16 + ab : Nat) : ℚ) / 255⟩
    | _, _, _, _, _, _, _, _ => none
  | _ => none

/-- The per-line loop body of `Backend::document_color`: leftmost
non-overlapping matches of `#([0-9A-Fa-f]{6,8})` (greedy, so up to 8 digits,
at least 6), each decoded by `hex_to_color` and reported with *scalar* columns
(`chars().count()` of the prefix). `i` is the scalar index of the list head;
the first argument after the line index is fuel, never exhausted from
`server_line_colors`. -/
def serverScanAux (lineIdx : Nat) : Nat → List Char → Nat → List ColorInformation
  | 0, _, _ => []
  | _ + 1, [], _ => []
  | fuel + 1, c :: rest, i =>
    if c = '#' ∧ 6 ≤ (rest.takeWhile isAsciiHexDigit).length then
      let k := min (rest.takeWhile isAsciiHexDigit).length 8
      match hex_to_color (rest.take k) with
      | some color =>
        ⟨⟨⟨lineIdx, i⟩, ⟨lineIdx, i + 1 + k⟩⟩, color⟩ ::
          serverScanAux lineIdx fuel (rest.drop k) (i + 1 + k)
      | none => serverScanAux lineIdx fuel (rest.drop k) (i + 1 + k)
    else
      serverScanAux lineIdx fuel rest (i + 1)

/-- The annotations `Backend::document_color` produces for one line. -/
def server_line_colors (line : List Char) (lineIdx : Nat) : List ColorInformation :=
  serverScanAux lineIdx (line.length + 1) line 0

/-! ## Invariants -/

/-- The cache invariant: re-running the extractor over every line's text at
its own index reproduces the document's lines exactly (so no cached
annotation list is ever stale). -/
def cacheOk (doc : Document) : Prop :=
  parseLines 0 (doc.lines.map Line.text) = some doc.lines

/-- Reachable-document invariant: the cache invariant plus the fact that no
line text contains a line terminator. -/
def goodDoc (doc : Document) : Prop :=
  cacheOk doc ∧ ∀ l ∈ doc.lines, '\n' ∉ l.text

/-! ## Lemmas: the digit loop -/

theorem parseDigits_spine :
    ∀ (n : Nat) (xs ds cs r : List Nat), parseDigits n xs = some (ds, cs, r) →
      xs = cs ++ r ∧ cs.length = ds.length := by
  intro n
  induction n with
  | zero =>
    intro xs ds cs r h
    simp only [parseDigits, Option.some.injEq, Prod.mk.injEq] at h
    obtain ⟨h1, h2, h3⟩ := h
    subst h1; subst h2; subst h3
    exact ⟨rfl, rfl⟩
  | succ n ih =>
    intro xs ds cs r h
    cases xs with
    | nil =>
      simp only [parseDigits, Option.some.injEq, Prod.mk.injEq] at h
      obtain ⟨h1, h2, h3⟩ := h
      subst h1; subst h2; subst h3
      exact ⟨rfl, rfl⟩
    | cons u rest =>
      simp only [parseDigits] at h
      split at h
      · exact absurd h (by simp)
      · cases hd : toHexDigit u with
        | none =>
          rw [hd] at h
          simp only [Option.some.injEq, Prod.mk.injEq] at h
          obtain ⟨h1, h2, h3⟩ := h
          subst h1; subst h2; subst h3
          exact ⟨rfl, rfl⟩
        | some d =>
          rw [hd] at h
          cases hp : parseDigits n rest with
          | none => rw [hp] at h; exact absurd h (by simp)
          | some y =>
            obtain ⟨ds', cs', r'⟩ := y
            rw [hp] at h
            simp only [Option.some.injEq, Prod.mk.injEq] at h
            obtain ⟨h1, h2, h3⟩ := h
            obtain ⟨e1, e2⟩ := ih rest ds' cs' r' hp
            subst h1; subst h2; subst h3
            refine ⟨by simp [e1], by simp [e2]⟩

theorem parseDigits_append13 (n : Nat) :
    ∀ xs : List Nat, parseDigits n (xs ++ [13]) =
      (parseDigits n xs).map (fun x => (x.1, x.2.1, x.2.2 ++ [13])) := by
  induction n with
  | zero => intro xs; rfl
  | succ n ih =>
    intro xs
    cases xs with
    | nil =>
      simp [parseDigits, toHexDigit]
    | cons u rest =>
      by_cases hs : 0xD800 ≤ u ∧ u < 0xE000
      · simp [parseDigits, hs]
      · cases hd : toHexDigit u with
        | none => simp [parseDigits, hs, hd]
        | some d =>
          cases hp : parseDigits n rest with
          | none =>
            have h13 : parseDigits n (rest ++ [13]) = none := by rw [ih rest, hp]; rfl
            simp [parseDigits, hs, hd, hp, h13]
          | some y =>
            obtain ⟨ds', cs', r'⟩ := y
            have h13 : parseDigits n (rest ++ [13]) = some (ds', cs', r' ++ [13]) := by
              rw [ih rest, hp]; rfl
            simp [parseDigits, hs, hd, hp, h13]

/-- A hex digit comes from an ASCII code, far below the surrogate range. -/
theorem toHexDigit_not_surrogate {u d : Nat} (h : toHexDigit u = some d) :
    ¬(0xD800 ≤ u ∧ u < 0xE000) := by
  unfold toHexDigit at h
  split at h
  · omega
  · split at h
    · omega
    · split at h
      · omega
      · exact absurd h (by simp)

theorem parseDigits_isSome (n : Nat) :
    ∀ xs : List Nat, (∀ u ∈ xs, ¬(0xD800 ≤ u ∧ u < 0xE000)) →
      (parseDigits n xs).isSome := by
  induction n with
  | zero => intro xs _; simp [parseDigits]
  | succ n ih =>
    intro xs hxs
    cases xs with
    | nil => simp [parseDigits]
    | cons u rest =>
      simp only [parseDigits]
      rw [if_neg (hxs u (by simp))]
      cases hd : toHexDigit u with
      | none => simp
      | some d =>
        have := ih rest (fun v hv => hxs v (by simp [hv]))
        cases hp : parseDigits n rest with
        | none => rw [hp] at this; exact absurd this (by simp)
        | some y => obtain ⟨ds', cs', r'⟩ := y; simp

/-- The unit put back after a 7-digit run, together with the remaining units,
is exactly the input minus its first six units. -/
theorem getLastD_cons_eq_drop :
    ∀ (cs r : List Nat), cs.length = 7 → cs.getLastD 0 :: r = (cs ++ r).drop 6 := by
  intro cs r h
  match cs, h with
  | [a, b, c, d, e, f, g], _ => simp [List.getLastD]

theorem parseDigits_length_le :
    ∀ (n : Nat) (xs ds cs r : List Nat), parseDigits n xs = some (ds, cs, r) →
      ds.length ≤ n := by
  intro n
  induction n with
  | zero =>
    intro xs ds cs r h
    simp only [parseDigits, Option.some.injEq, Prod.mk.injEq] at h
    simp [← h.1]
  | succ n ih =>
    intro xs ds cs r h
    cases xs with
    | nil =>
      simp only [parseDigits, Option.some.injEq, Prod.mk.injEq] at h
      simp [← h.1]
    | cons u rest =>
      simp only [parseDigits] at h
      split at h
      · exact absurd h (by simp)
      · cases hd : toHexDigit u with
        | none =>
          rw [hd] at h
          simp only [Option.some.injEq, Prod.mk.injEq] at h
          simp [← h.1]
        | some d =>
          rw [hd] at h
          cases hp : parseDigits n rest with
          | none => rw [hp] at h; exact absurd h (by simp)
          | some y =>
            obtain ⟨ds', cs', r'⟩ := y
            rw [hp] at h
            simp only [Option.some.injEq, Prod.mk.injEq] at h
            have := ih rest ds' cs' r' hp
            simp [← h.1, Nat.succ_le_succ this]

/-! ## Lemmas: the extractor scan -/

theorem scanAux_fuel (lineIdx : Nat) :
    ∀ f₁ f₂ us i, us.length < f₁ → us.length < f₂ →
      scanAux lineIdx f₁ us i = scanAux lineIdx f₂ us i := by
  intro f₁
  induction f₁ with
  | zero => intro f₂ us i h1 _; omega
  | succ f₁ ih =>
    intro f₂ us i h1 h2
    cases f₂ with
    | zero => omega
    | succ f₂ =>
      cases us with
      | nil => rfl
      | cons u rest =>
        have hrest1 : rest.length < f₁ := by simp at h1; omega
        have hrest2 : rest.length < f₂ := by simp at h2; omega
        by_cases hu : u = 35
        · simp only [scanAux, if_pos hu]
          cases hp : parseDigits 8 rest with
          | none => rfl
          | some y =>
            obtain ⟨ds, cs, r⟩ := y
            have hsp := parseDigits_spine 8 rest ds cs r hp
            have hlen : rest.length = ds.length + r.length := by
              rw [hsp.1, List.length_append, hsp.2]
            by_cases h6 : ds.length < 6
            · simp only [if_pos h6]
              exact ih f₂ r _ (by omega) (by omega)
            · simp only [if_neg h6]
              rw [ih f₂ (if ds.length = 7 then cs.getLastD 0 :: r else r)
                    (i + 1 + (if ds.length = 7 then 6 else ds.length))
                    (by split
                        · simp only [List.length_cons]; omega
                        · omega)
                    (by split
                        · simp only [List.length_cons]; omega
                        · omega)]
        · simp only [scanAux, if_neg hu]
          exact ih f₂ rest (i + 1) hrest1 hrest2

theorem scanAux_relabel (lineIdx lineIdx' : Nat) :
    ∀ f us i, scanAux lineIdx f us i =
      (scanAux lineIdx' f us i).map (List.map (setLineIdx lineIdx)) := by
  intro f
  induction f with
  | zero => intro us i; rfl
  | succ f ih =>
    intro us i
    cases us with
    | nil => rfl
    | cons u rest =>
      by_cases hu : u = 35
      · simp only [scanAux, if_pos hu]
        cases hp : parseDigits 8 rest with
        | none => rfl
        | some y =>
          obtain ⟨ds, cs, r⟩ := y
          by_cases h6 : ds.length < 6
          · simp only [if_pos h6]
            exact ih r _
          · simp only [if_neg h6]
            rw [ih (if ds.length = 7 then cs.getLastD 0 :: r else r)
                  (i + 1 + (if ds.length = 7 then 6 else ds.length))]
            cases scanAux lineIdx' f (if ds.length = 7 then cs.getLastD 0 :: r else r)
                (i + 1 + (if ds.length = 7 then 6 else ds.length)) with
            | none => rfl
            | some cis => simp [setLineIdx]
      · simp only [scanAux, if_neg hu]
        exact ih rest (i + 1)

theorem scanAux_fields {lineIdx f i : Nat} {us : List Nat} {cis : List ColorInformation}
    (h : scanAux lineIdx f us i = some cis) :
    ∀ ci ∈ cis, ci.range.start.line = lineIdx ∧ ci.range.stop.line = lineIdx := by
  rw [scanAux_relabel lineIdx 0] at h
  cases h0 : scanAux 0 f us i with
  | none => rw [h0] at h; exact absurd h (by simp)
  | some cis0 =>
    rw [h0] at h
    simp only [Option.map_some', Option.some.injEq] at h
    intro ci hci
    rw [← h] at hci
    obtain ⟨ci0, _, rfl⟩ := List.mem_map.mp hci
    exact ⟨rfl, rfl⟩

theorem scanAux_append13 (lineIdx : Nat) :
    ∀ f us i, us.length + 1 < f →
      scanAux lineIdx f (us ++ [13]) i = scanAux lineIdx f us i := by
  intro f
  induction f with
  | zero => intro us i h; omega
  | succ f ih =>
    intro us i h
    cases us with
    | nil =>
      cases f with
      | zero => omega
      | succ f => simp [scanAux]
    | cons u rest =>
      have hrest : rest.length + 1 + 1 < f + 1 := by simpa using h
      by_cases hu : u = 35
      · simp only [List.cons_append, List.append_eq, scanAux, if_pos hu]
        rw [parseDigits_append13]
        cases hp : parseDigits 8 rest with
        | none => rfl
        | some y =>
          obtain ⟨ds, cs, r⟩ := y
          have hsp := parseDigits_spine 8 rest ds cs r hp
          have hlen : rest.length = ds.length + r.length := by
            rw [hsp.1, List.length_append, hsp.2]
          simp only [Option.map_some']
          by_cases h6 : ds.length < 6
          · simp only [if_pos h6]
            exact ih r _ (by omega)
          · simp only [if_neg h6]
            have hsplit : (if ds.length = 7 then cs.getLastD 0 :: (r ++ [13]) else r ++ [13]) =
                (if ds.length = 7 then cs.getLastD 0 :: r else r) ++ [13] := by
              split <;> simp
            rw [hsplit, ih (if ds.length = 7 then cs.getLastD 0 :: r else r) _
              (by split
                  · simp only [List.length_cons]; omega
                  · omega)]
      · simp only [List.cons_append, scanAux, if_neg hu]
        exact ih rest (i + 1) (by omega)

theorem scanAux_isSome (lineIdx : Nat) :
    ∀ f us i, us.length < f → (∀ u ∈ us, ¬(0xD800 ≤ u ∧ u < 0xE000)) →
      (scanAux lineIdx f us i).isSome := by
  intro f
  induction f with
  | zero => intro us i h _; omega
  | succ f ih =>
    intro us i h hsur
    cases us with
    | nil => simp [scanAux]
    | cons u rest =>
      have hrest : rest.length < f := by simp at h; omega
      have hsurr : ∀ v ∈ rest, ¬(0xD800 ≤ v ∧ v < 0xE000) :=
        fun v hv => hsur v (by simp [hv])
      by_cases hu : u = 35
      · simp only [scanAux, if_pos hu]
        have hps := parseDigits_isSome 8 rest hsurr
        cases hp : parseDigits 8 rest with
        | none => rw [hp] at hps; exact absurd hps (by simp)
        | some y =>
          obtain ⟨ds, cs, r⟩ := y
          have hsp := parseDigits_spine 8 rest ds cs r hp
          have hlen : rest.length = ds.length + r.length := by
            rw [hsp.1, List.length_append, hsp.2]
          have hsurrR : ∀ v ∈ r, ¬(0xD800 ≤ v ∧ v < 0xE000) := by
            intro v hv
            exact hsurr v (by rw [hsp.1]; exact List.mem_append_right _ hv)
          by_cases h6 : ds.length < 6
          · simp only [if_pos h6]
            exact ih r _ (by omega) hsurrR
          · simp only [if_neg h6]
            have hlt : (if ds.length = 7 then cs.getLastD 0 :: r else r).length < f := by
              split
              · simp only [List.length_cons]; omega
              · omega
            have hrm : (scanAux lineIdx f (if ds.length = 7 then cs.getLastD 0 :: r else r)
                (i + 1 + (if ds.length = 7 then 6 else ds.length))).isSome := by
              apply ih _ _ hlt
              intro v hv
              apply hsurr v
              rw [hsp.1]
              by_cases h7 : ds.length = 7
              · rw [if_pos h7, getLastD_cons_eq_drop cs r (by rw [hsp.2, h7])] at hv
                exact List.drop_subset _ _ hv
              · rw [if_neg h7] at hv
                exact List.mem_append_right _ hv
            cases hrec : scanAux lineIdx f (if ds.length = 7 then cs.getLastD 0 :: r else r)
                (i + 1 + (if ds.length = 7 then 6 else ds.length)) with
            | none => rw [hrec] at hrm; exact absurd hrm (by simp)
            | some cis => simp
      · simp only [scanAux, if_neg hu]
        exact ih rest (i + 1) hrest hsurr

/-- Every annotation the scan emits starts at a `#` unit, ends 7 or 9 UTF-16
columns later, and its columns index the unit list from the scan origin. -/
theorem scanAux_hash (lineIdx : Nat) :
    ∀ f us i cis, scanAux lineIdx f us i = some cis → ∀ ci ∈ cis,
      ∃ k, ci.range.start.character = i + k ∧ us[k]? = some 35 ∧
        (ci.range.stop.character = ci.range.start.character + 7 ∨
         ci.range.stop.character = ci.range.start.character + 9) := by
  intro f
  induction f with
  | zero => intro us i cis h; exact absurd h (by simp [scanAux])
  | succ f ih =>
    intro us i cis h
    cases us with
    | nil =>
      simp only [scanAux, Option.some.injEq] at h
      subst h
      intro ci hci
      exact absurd hci (by simp)
    | cons u rest =>
      by_cases hu : u = 35
      · simp only [scanAux, if_pos hu] at h
        cases hp : parseDigits 8 rest with
        | none => simp [hp] at h
        | some y =>
          obtain ⟨ds, cs, r⟩ := y
          simp only [hp] at h
          have hsp := parseDigits_spine 8 rest ds cs r hp
          have hle := parseDigits_length_le 8 rest ds cs r hp
          by_cases h6 : ds.length < 6
          · rw [if_pos h6] at h
            intro ci hci
            obtain ⟨k, hk1, hk2, hk3⟩ := ih r _ cis h ci hci
            refine ⟨1 + ds.length + k, by omega, ?_, hk3⟩
            have hidx : 1 + ds.length + k = (ds.length + k) + 1 := by omega
            rw [hidx, List.getElem?_cons_succ, hsp.1,
              List.getElem?_append_right (by omega)]
            have hidx2 : ds.length + k - cs.length = k := by omega
            rw [hidx2]
            exact hk2
          · rw [if_neg h6] at h
            by_cases h7 : ds.length = 7
            · simp only [if_pos h7] at h
              have hcs7 : cs.length = 7 := by rw [hsp.2, h7]
              have hdrop : cs.getLastD 0 :: r = (cs ++ r).drop 6 :=
                getLastD_cons_eq_drop cs r hcs7
              cases hrec : scanAux lineIdx f (cs.getLastD 0 :: r) (i + 1 + 6) with
              | none =>
                rw [hrec] at h
                simp at h
              | some cis' =>
                rw [hrec] at h
                simp only [Option.some.injEq] at h
                subst h
                intro ci hci
                rcases List.mem_cons.mp hci with hhead | htail
                · subst hhead
                  refine ⟨0, ?_, by simp [hu], ?_⟩
                  · exact (show i + 1 + 6 - (1 + 6) = i + 0 by omega)
                  · exact Or.inl (show i + 1 + 6 = i + 1 + 6 - (1 + 6) + 7 by omega)
                · obtain ⟨k, hk1, hk2, hk3⟩ := ih _ _ cis' hrec ci htail
                  refine ⟨7 + k, by omega, ?_, hk3⟩
                  have hidx : 7 + k = (6 + k) + 1 := by omega
                  rw [hidx, List.getElem?_cons_succ, hsp.1]
                  rw [hdrop, List.getElem?_drop] at hk2
                  exact hk2
            · simp only [if_neg h7] at h
              cases hrec : scanAux lineIdx f r (i + 1 + ds.length) with
              | none => simp [hrec] at h
              | some cis' =>
                simp only [hrec, Option.some.injEq] at h
                subst h
                intro ci hci
                rcases List.mem_cons.mp hci with hhead | htail
                · subst hhead
                  refine ⟨0, ?_, by simp [hu], ?_⟩
                  · exact (show i + 1 + ds.length - (1 + ds.length) = i + 0 by omega)
                  · exact (show i + 1 + ds.length = i + 1 + ds.length - (1 + ds.length) + 7 ∨
                      i + 1 + ds.length = i + 1 + ds.length - (1 + ds.length) + 9 by omega)
                · obtain ⟨k, hk1, hk2, hk3⟩ := ih _ _ cis' hrec ci htail
                  refine ⟨1 + ds.length + k, by omega, ?_, hk3⟩
                  have hidx : 1 + ds.length + k = (ds.length + k) + 1 := by omega
                  rw [hidx, List.getElem?_cons_succ, hsp.1,
                    List.getElem?_append_right (by omega)]
                  have hidx2 : ds.length + k - cs.length = k := by omega
                  rw [hidx2]
                  exact hk2
      · simp only [scanAux, if_neg hu] at h
        intro ci hci
        obtain ⟨k, hk1, hk2, hk3⟩ := ih rest (i + 1) cis h ci hci
        exact ⟨k + 1, by omega, by simpa using hk2, hk3⟩

/-! ## Lemmas: `parse_line_colors` -/

theorem parse_empty (idx : Nat) : parse_line_colors [] idx = some [] := rfl

theorem parse_append13 (us : List Nat) (idx : Nat) :
    parse_line_colors (us ++ [13]) idx = parse_line_colors us idx := by
  unfold parse_line_colors
  have h1 : (us ++ [13]).length + 1 = us.length + 2 := by simp
  rw [h1, scanAux_append13 idx (us.length + 2) us 0 (by omega)]
  exact scanAux_fuel idx (us.length + 2) (us.length + 1) us 0 (by omega) (by omega)

theorem parse_relabel (us : List Nat) (idx idx' : Nat) :
    parse_line_colors us idx =
      (parse_line_colors us idx').map (List.map (setLineIdx idx)) :=
  scanAux_relabel idx idx' _ us 0

theorem parse_fields {us : List Nat} {idx : Nat} {cis : List ColorInformation}
    (h : parse_line_colors us idx = some cis) :
    ∀ ci ∈ cis, ci.range.start.line = idx ∧ ci.range.stop.line = idx :=
  scanAux_fields h

theorem parse_isSome (us : List Nat) (idx : Nat)
    (h : ∀ u ∈ us, ¬(0xD800 ≤ u ∧ u < 0xE000)) : (parse_line_colors us idx).isSome :=
  scanAux_isSome idx _ us 0 (by omega) h

theorem utf16Encode_append (a b : List Char) :
    utf16Encode (a ++ b) = utf16Encode a ++ utf16Encode b := by
  unfold utf16Encode
  rw [List.map_append, List.flatten_append]

theorem utf16Encode_CR (t : List Char) :
    utf16Encode (t ++ ['\r']) = utf16Encode t ++ [13] := by
  rw [utf16Encode_append]
  rfl

theorem parse_stripCR (t : List Char) (k : Nat) :
    parse_line_colors (utf16Encode (stripCR t)) k =
      parse_line_colors (utf16Encode t) k := by
  unfold stripCR
  split
  · next hlast =>
    have hne : t ≠ [] := by
      intro hnil
      rw [hnil] at hlast
      simp at hlast
    have hgl : t.getLast hne = '\r' := by
      rw [List.getLast?_eq_getLast t hne, Option.some.injEq] at hlast
      exact hlast
    have ht : t.dropLast ++ ['\r'] = t := by
      conv_rhs => rw [← List.dropLast_append_getLast hne, hgl]
    calc parse_line_colors (utf16Encode t.dropLast) k
        = parse_line_colors (utf16Encode t.dropLast ++ [13]) k :=
          (parse_append13 _ k).symm
      _ = parse_line_colors (utf16Encode (t.dropLast ++ ['\r'])) k := by
          rw [utf16Encode_CR]
      _ = parse_line_colors (utf16Encode t) k := by rw [ht]
  · rfl

/-! ## Lemmas: the offset translator -/

theorem utf16EncodeChar_length (c : Char) : (utf16EncodeChar c).length = utf16Len c := by
  by_cases h : c.toNat < 0x10000 <;> simp [utf16EncodeChar, utf16Len, h]

theorem utf16Length_nil : utf16Length [] = 0 := rfl

theorem utf16Length_cons (c : Char) (t : List Char) :
    utf16Length (c :: t) = utf16Len c + utf16Length t := by
  simp [utf16Length, utf16Encode, utf16EncodeChar_length]

theorem byteLen_nil : byteLen [] = 0 := rfl

theorem byteLen_cons (c : Char) (t : List Char) :
    byteLen (c :: t) = utf8Len c + byteLen t := by
  simp [byteLen]

theorem utf16Len_pos (c : Char) : 1 ≤ utf16Len c := by
  unfold utf16Len
  split <;> omega

theorem u16ToByteAux_spec (target : Nat) :
    ∀ (cs : List Char) (count byteAcc : Nat),
      (∀ k, k ≤ cs.length → count + utf16Length (cs.take k) = target →
        u16ToByteAux target cs count byteAcc = byteAcc + byteLen (cs.take k)) ∧
      (count + utf16Length cs < target →
        u16ToByteAux target cs count byteAcc = byteAcc + byteLen cs) := by
  intro cs
  induction cs with
  | nil =>
    intro count byteAcc
    constructor
    · intro k hk _
      have hk0 : k = 0 := by simpa using hk
      subst hk0
      simp [u16ToByteAux, byteLen]
    · intro _
      simp [u16ToByteAux, byteLen]
  | cons c t ih =>
    intro count byteAcc
    constructor
    · intro k hk hsum
      cases k with
      | zero =>
        rw [List.take_zero, utf16Length_nil] at hsum
        simp only [u16ToByteAux, if_pos (by omega : count = target)]
        simp [byteLen]
      | succ k' =>
        rw [List.take_succ_cons, utf16Length_cons] at hsum
        have hne : count ≠ target := by
          have := utf16Len_pos c
          omega
        simp only [u16ToByteAux, if_neg hne]
        have hrec := (ih (count + utf16Len c) (byteAcc + utf8Len c)).1 k'
          (by simpa using hk) (by omega)
        rw [hrec, List.take_succ_cons, byteLen_cons]
        omega
    · intro hlt
      rw [utf16Length_cons] at hlt
      have hne : count ≠ target := by
        have := utf16Len_pos c
        omega
      simp only [u16ToByteAux, if_neg hne]
      have hrec := (ih (count + utf16Len c) (byteAcc + utf8Len c)).2 (by omega)
      rw [hrec, byteLen_cons]
      omega

/-! ## Lemmas: byte slicing and line splitting -/

theorem mem_takeBytes : ∀ (n : Nat) (t : List Char) (c : Char), c ∈ takeBytes n t → c ∈ t := by
  intro n t
  induction t generalizing n with
  | nil => intro c h; exact absurd h (by simp [takeBytes])
  | cons a t ih =>
    intro c h
    simp only [takeBytes] at h
    split at h
    · rcases List.mem_cons.mp h with rfl | h2
      · exact List.mem_cons_self _ _
      · exact List.mem_cons_of_mem _ (ih _ c h2)
    · exact absurd h (by simp)

theorem mem_dropBytes : ∀ (n : Nat) (t : List Char) (c : Char), c ∈ dropBytes n t → c ∈ t := by
  intro n t
  induction t generalizing n with
  | nil => intro c h; exact absurd h (by simp [dropBytes])
  | cons a t ih =>
    intro c h
    simp only [dropBytes] at h
    split at h
    · exact List.mem_cons_of_mem _ (ih _ c h)
    · exact h

theorem splitLines_ne_nil (t : List Char) : splitLines t ≠ [] := by
  induction t with
  | nil => simp [splitLines]
  | cons c cs ih =>
    simp only [splitLines]
    split
    · simp
    · cases h : splitLines cs with
      | nil => exact absurd h ih
      | cons p ps => simp

theorem mem_splitLines : ∀ (t p : List Char), p ∈ splitLines t →
    ∀ c ∈ p, c ∈ t ∧ c ≠ '\n' := by
  intro t
  induction t with
  | nil =>
    intro p hp c hc
    simp only [splitLines, List.mem_singleton] at hp
    subst hp
    exact absurd hc (by simp)
  | cons a t ih =>
    intro p hp c hc
    simp only [splitLines] at hp
    by_cases ha : a = '\n'
    · rw [if_pos ha] at hp
      rcases List.mem_cons.mp hp with rfl | hp2
      · exact absurd hc (by simp)
      · obtain ⟨h1, h2⟩ := ih p hp2 c hc
        exact ⟨List.mem_cons_of_mem _ h1, h2⟩
    · rw [if_neg ha] at hp
      cases hsp : splitLines t with
      | nil => exact absurd hsp (splitLines_ne_nil t)
      | cons q qs =>
        rw [hsp] at hp
        rcases List.mem_cons.mp hp with rfl | hp2
        · rcases List.mem_cons.mp hc with rfl | hc2
          · exact ⟨List.mem_cons_self _ _, ha⟩
          · obtain ⟨h1, h2⟩ := ih q (by rw [hsp]; exact List.mem_cons_self _ _) c hc2
            exact ⟨List.mem_cons_of_mem _ h1, h2⟩
        · obtain ⟨h1, h2⟩ := ih p (by rw [hsp]; exact List.mem_cons_of_mem _ hp2) c hc
          exact ⟨List.mem_cons_of_mem _ h1, h2⟩

theorem mem_stripCR (p : List Char) (c : Char) (h : c ∈ stripCR p) : c ∈ p := by
  unfold stripCR at h
  split at h
  · exact (List.dropLast_sublist p).subset h
  · exact h

theorem mem_rustLinesAux : ∀ (ps : List (List Char)) (p : List Char),
    p ∈ rustLinesAux ps → ∃ q ∈ ps, ∀ c ∈ p, c ∈ q := by
  intro ps
  induction ps with
  | nil => intro p hp; exact absurd hp (by simp [rustLinesAux])
  | cons q ps ih =>
    intro p hp
    cases ps with
    | nil =>
      simp only [rustLinesAux] at hp
      split at hp
      · exact absurd hp (by simp)
      · rw [List.mem_singleton] at hp
        subst hp
        exact ⟨p, by simp, fun c hc => hc⟩
    | cons q2 ps2 =>
      simp only [rustLinesAux] at hp
      rcases List.mem_cons.mp hp with rfl | hp2
      · exact ⟨q, by simp, fun c hc => mem_stripCR q c hc⟩
      · obtain ⟨q3, hq3, hsub⟩ := ih p hp2
        exact ⟨q3, List.mem_cons_of_mem _ hq3, hsub⟩

theorem mem_rustLines (t p : List Char) (hp : p ∈ rustLines t) :
    ∀ c ∈ p, c ∈ t ∧ c ≠ '\n' := by
  intro c hc
  obtain ⟨q, hq, hsub⟩ := mem_rustLinesAux (splitLines t) p hp
  exact mem_splitLines t q hq c (hsub c hc)

theorem joinLines_splitLines : ∀ t : List Char, joinLines (splitLines t) = t := by
  intro t
  induction t with
  | nil => rfl
  | cons c cs ih =>
    simp only [splitLines]
    by_cases hc : c = '\n'
    · rw [if_pos hc]
      cases hsp : splitLines cs with
      | nil => exact absurd hsp (splitLines_ne_nil cs)
      | cons p ps =>
        rw [hsp] at ih
        simp only [joinLines]
        rw [ih, hc]
        rfl
    · rw [if_neg hc]
      cases hsp : splitLines cs with
      | nil => exact absurd hsp (splitLines_ne_nil cs)
      | cons p ps =>
        rw [hsp] at ih
        cases ps with
        | nil =>
          simp only [joinLines] at ih ⊢
          rw [ih]
        | cons p2 ps2 =>
          simp only [joinLines] at ih ⊢
          rw [List.cons_append, ih]

theorem splitLines_of_no_nl : ∀ t : List Char, '\n' ∉ t → splitLines t = [t] := by
  intro t
  induction t with
  | nil => intro _; rfl
  | cons c cs ih =>
    intro h
    have hc : c ≠ '\n' := fun hcc => h (by simp [hcc])
    have hcs : '\n' ∉ cs := fun hin => h (List.mem_cons_of_mem _ hin)
    simp only [splitLines, if_neg hc, ih hcs]

theorem splitLines_append_nl : ∀ (t s : List Char), '\n' ∉ t →
    splitLines (t ++ '\n' :: s) = t :: splitLines s := by
  intro t
  induction t with
  | nil =>
    intro s _
    simp [splitLines]
  | cons c cs ih =>
    intro s h
    have hc : c ≠ '\n' := fun hcc => h (by simp [hcc])
    have hcs : '\n' ∉ cs := fun hin => h (List.mem_cons_of_mem _ hin)
    simp only [List.cons_append, List.append_eq, splitLines, if_neg hc, ih s hcs]

theorem splitLines_joinLines : ∀ ts : List (List Char), ts ≠ [] →
    (∀ t ∈ ts, '\n' ∉ t) → splitLines (joinLines ts) = ts := by
  intro ts
  induction ts with
  | nil => intro h _; exact absurd rfl h
  | cons t ts ih =>
    intro _ hnl
    cases ts with
    | nil =>
      simp only [joinLines]
      exact splitLines_of_no_nl t (hnl t (by simp))
    | cons t2 ts2 =>
      simp only [joinLines]
      rw [splitLines_append_nl t _ (hnl t (by simp)),
        ih (by simp) (fun q hq => hnl q (List.mem_cons_of_mem _ hq))]

/-! ## Lemmas: `parseLines` -/

theorem utf16Encode_nil : utf16Encode [] = [] := rfl

theorem parseLines_texts : ∀ (ts : List (List Char)) (k : Nat) (ls : List Line),
    parseLines k ts = some ls → ls.map Line.text = ts := by
  intro ts
  induction ts with
  | nil =>
    intro k ls h
    simp only [parseLines, Option.some.injEq] at h
    subst h
    rfl
  | cons t ts ih =>
    intro k ls h
    simp only [parseLines] at h
    cases hc : parse_line_colors (utf16Encode t) k with
    | none => rw [hc] at h; exact absurd h (by simp)
    | some cs =>
      cases hA : parseLines (k + 1) ts with
      | none => rw [hc, hA] at h; exact absurd h (by simp)
      | some ls' =>
        rw [hc, hA] at h
        simp only [Option.some.injEq] at h
        subst h
        simp [ih (k + 1) ls' hA]

theorem parseLines_length {ts : List (List Char)} {k : Nat} {ls : List Line}
    (h : parseLines k ts = some ls) : ls.length = ts.length := by
  have := parseLines_texts ts k ls h
  rw [← this, List.length_map]

theorem parseLines_append_some : ∀ (as bs : List (List Char)) (k : Nat) (la lb : List Line),
    parseLines k as = some la → parseLines (k + as.length) bs = some lb →
      parseLines k (as ++ bs) = some (la ++ lb) := by
  intro as
  induction as with
  | nil =>
    intro bs k la lb ha hb
    simp only [parseLines, Option.some.injEq] at ha
    subst ha
    simpa using hb
  | cons t as ih =>
    intro bs k la lb ha hb
    simp only [parseLines] at ha
    cases hc : parse_line_colors (utf16Encode t) k with
    | none => rw [hc] at ha; exact absurd ha (by simp)
    | some cs =>
      cases hA : parseLines (k + 1) as with
      | none => rw [hc, hA] at ha; exact absurd ha (by simp)
      | some la' =>
        rw [hc, hA] at ha
        simp only [Option.some.injEq] at ha
        subst ha
        have hb' : parseLines (k + 1 + as.length) bs = some lb := by
          have harith : k + 1 + as.length = k + (t :: as).length := by simp; omega
          rw [harith]
          exact hb
        have hr := ih bs (k + 1) la' lb hA hb'
        simp only [List.cons_append, parseLines, List.append_eq, hc, hr]

theorem parseLines_split : ∀ (m : Nat) (ts : List (List Char)) (k : Nat) (ls : List Line),
    parseLines k ts = some ls →
      parseLines k (ts.take m) = some (ls.take m) ∧
      parseLines (k + m) (ts.drop m) = some (ls.drop m) := by
  intro m
  induction m with
  | zero =>
    intro ts k ls h
    simpa [parseLines] using h
  | succ m ih =>
    intro ts k ls h
    cases ts with
    | nil =>
      simp only [parseLines, Option.some.injEq] at h
      subst h
      simp [parseLines]
    | cons t ts =>
      simp only [parseLines] at h
      cases hc : parse_line_colors (utf16Encode t) k with
      | none => rw [hc] at h; exact absurd h (by simp)
      | some cs =>
        cases hA : parseLines (k + 1) ts with
        | none => rw [hc, hA] at h; exact absurd h (by simp)
        | some ls' =>
          rw [hc, hA] at h
          simp only [Option.some.injEq] at h
          subst h
          obtain ⟨h1, h2⟩ := ih ts (k + 1) ls' hA
          constructor
          · simp only [List.take_succ_cons, parseLines, hc, h1]
          · rw [List.drop_succ_cons, show k + (m + 1) = k + 1 + m by omega]
            exact h2

theorem parseLines_replicate : ∀ (n k : Nat),
    parseLines k (List.replicate n []) = some (List.replicate n emptyLine) := by
  intro n
  induction n with
  | zero => intro k; rfl
  | succ n ih =>
    intro k
    simp only [List.replicate_succ, parseLines, utf16Encode_nil, parse_empty, ih (k + 1),
      emptyLine]

theorem parseLines_fields : ∀ (ts : List (List Char)) (k : Nat) (ls : List Line),
    parseLines k ts = some ls → ∀ (j : Nat) (hj : j < ls.length),
      ∀ ci ∈ (ls.get ⟨j, hj⟩).colors,
        ci.range.start.line = k + j ∧ ci.range.stop.line = k + j := by
  intro ts
  induction ts with
  | nil =>
    intro k ls h j hj
    simp only [parseLines, Option.some.injEq] at h
    subst h
    exact absurd hj (by simp)
  | cons t ts ih =>
    intro k ls h j hj
    simp only [parseLines] at h
    cases hc : parse_line_colors (utf16Encode t) k with
    | none => rw [hc] at h; exact absurd h (by simp)
    | some cs =>
      cases hA : parseLines (k + 1) ts with
      | none => rw [hc, hA] at h; exact absurd h (by simp)
      | some ls' =>
        rw [hc, hA] at h
        simp only [Option.some.injEq] at h
        subst h
        cases j with
        | zero =>
          intro ci hci
          have := parse_fields hc ci hci
          simpa using this
        | succ j =>
          intro ci hci
          have := ih (k + 1) ls' hA j (by simpa using hj) ci (by simpa using hci)
          omega

theorem parse_shift_line {us : List Nat} {k : Nat} {cs : List ColorInformation}
    (h : parse_line_colors us k = some cs) (delta : Int) (_hd : 0 ≤ (k : Int) + delta) :
    parse_line_colors us (((k : Int) + delta).toNat) = some (cs.map (shiftColor delta)) := by
  have hrel := parse_relabel us (((k : Int) + delta).toNat) k
  rw [h] at hrel
  rw [hrel]
  simp only [Option.map_some', Option.some.injEq]
  apply List.map_congr_left
  intro ci hci
  obtain ⟨f1, f2⟩ := parse_fields h ci hci
  unfold setLineIdx shiftColor
  rw [f1, f2]

theorem parseLines_shift : ∀ (ts : List (List Char)) (k : Nat) (ls : List Line),
    parseLines k ts = some ls → ∀ delta : Int, 0 ≤ (k : Int) + delta →
      parseLines (((k : Int) + delta).toNat) ts = some (ls.map (shiftLineColors delta)) := by
  intro ts
  induction ts with
  | nil =>
    intro k ls h delta _
    simp only [parseLines, Option.some.injEq] at h
    subst h
    rfl
  | cons t ts ih =>
    intro k ls h delta hd
    simp only [parseLines] at h
    cases hc : parse_line_colors (utf16Encode t) k with
    | none => rw [hc] at h; exact absurd h (by simp)
    | some cs =>
      cases hA : parseLines (k + 1) ts with
      | none => rw [hc, hA] at h; exact absurd h (by simp)
      | some ls' =>
        rw [hc, hA] at h
        simp only [Option.some.injEq] at h
        subst h
        have hhead := parse_shift_line hc delta hd
        have htail := ih (k + 1) ls' hA delta (by omega)
        have harith : (((k : Int) + 1) + delta).toNat = ((k : Int) + delta).toNat + 1 := by
          omega
        rw [show ((k : Nat) + 1 : Nat) = ((k : Nat) + 1) from rfl] at htail
        have htail' : parseLines (((k : Int) + delta).toNat + 1) ts =
            some (ls'.map (shiftLineColors delta)) := by
          have hcast : (((k + 1 : Nat) : Int) + delta).toNat = ((k : Int) + delta).toNat + 1 := by
            push_cast
            omega
          rw [hcast] at htail
          exact htail
        simp only [parseLines, hhead, htail', List.map_cons, Option.some.injEq]
        rfl

theorem utf16Encode_no_surrogate (t : List Char) (h : ∀ c ∈ t, c.toNat < 0x10000) :
    ∀ u ∈ utf16Encode t, ¬(0xD800 ≤ u ∧ u < 0xE000) := by
  intro u hu
  unfold utf16Encode at hu
  rw [List.mem_flatten] at hu
  obtain ⟨l, hl, hul⟩ := hu
  rw [List.mem_map] at hl
  obtain ⟨c, hc, rfl⟩ := hl
  rw [utf16EncodeChar, if_pos (h c hc)] at hul
  rw [List.mem_singleton] at hul
  subst hul
  have hv : c.toNat < 0xd800 ∨ 0xdfff < c.toNat ∧ c.toNat < 0x110000 := c.valid
  omega

theorem parseLines_isSome : ∀ (ts : List (List Char)) (k : Nat),
    (∀ t ∈ ts, ∀ c ∈ t, c.toNat < 0x10000) → (parseLines k ts).isSome := by
  intro ts
  induction ts with
  | nil => intro k _; simp [parseLines]
  | cons t ts ih =>
    intro k hbmp
    have hhead := parse_isSome (utf16Encode t) k
      (utf16Encode_no_surrogate t (hbmp t (by simp)))
    have htail := ih (k + 1) (fun q hq => hbmp q (List.mem_cons_of_mem _ hq))
    simp only [parseLines]
    cases hc : parse_line_colors (utf16Encode t) k with
    | none => rw [hc] at hhead; exact absurd hhead (by simp)
    | some cs =>
      cases hA : parseLines (k + 1) ts with
      | none => rw [hA] at htail; exact absurd htail (by simp)
      | some ls' => simp

/-! ## Lemmas: edit building blocks -/

theorem mem_rustTextLines (txt p : List Char) (hp : p ∈ rustTextLines txt) :
    ∀ c ∈ p, c ∈ txt ∧ c ≠ '\n' := by
  intro c hc
  unfold rustTextLines at hp
  rcases List.mem_append.mp hp with h1 | h2
  · exact mem_rustLines txt p h1 c hc
  · split at h2
    · rw [List.mem_singleton] at h2
      subst h2
      exact absurd hc (by simp)
    · exact absurd h2 (by simp)

theorem mem_appendToLast : ∀ (suf : List Char) (ts : List (List Char)) (p : List Char),
    p ∈ appendToLast suf ts → ∀ c ∈ p, (∃ q ∈ ts, c ∈ q) ∨ c ∈ suf := by
  intro suf ts
  induction ts with
  | nil => intro p hp; exact absurd hp (by simp [appendToLast])
  | cons t ts ih =>
    intro p hp c hc
    cases ts with
    | nil =>
      simp only [appendToLast, List.mem_singleton] at hp
      subst hp
      rcases List.mem_append.mp hc with h1 | h2
      · exact Or.inl ⟨t, by simp, h1⟩
      · exact Or.inr h2
    | cons t2 ts2 =>
      simp only [appendToLast] at hp
      rcases List.mem_cons.mp hp with rfl | hp2
      · exact Or.inl ⟨p, by simp, hc⟩
      · rcases ih p hp2 c hc with ⟨q, hq, hcq⟩ | h2
        · exact Or.inl ⟨q, List.mem_cons_of_mem _ hq, hcq⟩
        · exact Or.inr h2

theorem mem_mergeTexts (pre suf : List Char) (ts : List (List Char)) (p : List Char)
    (hp : p ∈ mergeTexts pre suf ts) :
    ∀ c ∈ p, c ∈ pre ∨ c ∈ suf ∨ ∃ q ∈ ts, c ∈ q := by
  intro c hc
  cases ts with
  | nil =>
    simp only [mergeTexts, List.mem_singleton] at hp
    subst hp
    rcases List.mem_append.mp hc with h1 | h2
    · exact Or.inl h1
    · exact Or.inr (Or.inl h2)
  | cons t ts =>
    simp only [mergeTexts] at hp
    rcases mem_appendToLast suf _ p hp c hc with ⟨q, hq, hcq⟩ | h2
    · rcases List.mem_cons.mp hq with rfl | hq2
      · rcases List.mem_append.mp hcq with h1 | h3
        · exact Or.inl h1
        · exact Or.inr (Or.inr ⟨t, by simp, h3⟩)
      · exact Or.inr (Or.inr ⟨q, List.mem_cons_of_mem _ hq2, hcq⟩)
    · exact Or.inr (Or.inl h2)

theorem mem_getD_or {l : List Line} {i : Nat} {d : Line} :
    l.getD i d ∈ l ∨ l.getD i d = d := by
  by_cases h : i < l.length
  · left
    rw [List.getD_eq_getElem l d h]
    exact List.getElem_mem h
  · right
    rw [List.getD_eq_default l d (by omega)]

theorem mem_paddedLines {doc : Document} {el : Nat} {l : Line}
    (h : l ∈ paddedLines doc el) : l ∈ doc.lines ∨ l = emptyLine := by
  unfold paddedLines at h
  rcases List.mem_append.mp h with h1 | h2
  · exact Or.inl h1
  · exact Or.inr (List.eq_of_mem_replicate h2)

theorem mem_editNewTexts (doc : Document) (r : LspRange) (txt : List Char) :
    ∀ p ∈ editNewTexts doc r txt, ∀ c ∈ p,
      (∃ l ∈ paddedLines doc r.stop.line, c ∈ l.text) ∨ (c ∈ txt ∧ c ≠ '\n') := by
  intro p hp c hc
  unfold editNewTexts at hp
  rcases mem_mergeTexts _ _ _ p hp c hc with h1 | h2 | ⟨q, hq, hcq⟩
  · left
    have hmem := mem_takeBytes _ _ _ h1
    rcases mem_getD_or (l := paddedLines doc r.stop.line) (i := r.start.line)
        (d := emptyLine) with hin | hdef
    · exact ⟨_, hin, hmem⟩
    · rw [hdef] at hmem
      exact absurd hmem (by simp [emptyLine])
  · left
    have hmem := mem_dropBytes _ _ _ h2
    rcases mem_getD_or (l := paddedLines doc r.stop.line) (i := r.stop.line)
        (d := emptyLine) with hin | hdef
    · exact ⟨_, hin, hmem⟩
    · rw [hdef] at hmem
      exact absurd hmem (by simp [emptyLine])
  · exact Or.inr (mem_rustTextLines txt q hq c hcq)

theorem paddedLines_parse {doc : Document} (hc : cacheOk doc) (el : Nat) :
    parseLines 0 ((paddedLines doc el).map Line.text) = some (paddedLines doc el) := by
  unfold paddedLines
  rw [List.map_append]
  apply parseLines_append_some _ _ _ _ _ hc
  have hrep : (List.replicate (el + 1 - doc.lines.length) emptyLine).map Line.text =
      List.replicate (el + 1 - doc.lines.length) [] := by
    rw [List.map_replicate]
    rfl
  rw [hrep, List.length_map]
  exact parseLines_replicate _ _

theorem paddedLines_lt {doc : Document} {el : Nat} : el < (paddedLines doc el).length := by
  unfold paddedLines
  rw [List.length_append, List.length_replicate]
  omega

theorem edit_some_struct {doc doc' : Document} {r : LspRange} {txt : List Char}
    (h : doc.edit ⟨some r, txt⟩ = some doc') :
    ∃ newLines,
      r.start.line < (paddedLines doc r.stop.line).length ∧
      r.start.line ≤ r.stop.line ∧
      parseLines r.start.line (editNewTexts doc r txt) = some newLines ∧
      doc'.lines = (paddedLines doc r.stop.line).take r.start.line ++ newLines ++
        (if ((newLines.length : Int) - ((r.stop.line - r.start.line + 1 : Nat) : Int)) = 0
         then (paddedLines doc r.stop.line).drop
            (r.start.line + (r.stop.line - r.start.line + 1))
         else ((paddedLines doc r.stop.line).drop
            (r.start.line + (r.stop.line - r.start.line + 1))).map
            (shiftLineColors ((newLines.length : Int) -
              ((r.stop.line - r.start.line + 1 : Nat) : Int)))) := by
  unfold Document.edit at h
  simp only at h
  split at h
  · next hs =>
    cases hP : parseLines r.start.line (editNewTexts doc r txt) with
    | none => rw [hP] at h; exact absurd h (by simp)
    | some newLines =>
      rw [hP] at h
      simp only at h
      split at h
      · exact absurd h (by simp)
      · next hinv =>
        refine ⟨newLines, hs, by omega, rfl, ?_⟩
        simp only [Option.some.injEq] at h
        rw [← h]
  · exact absurd h (by simp)

theorem parseLines_reindex {ts : List (List Char)} {ls : List Line} (k k' : Nat)
    (h : parseLines k ts = some ls) :
    parseLines k' ts = some (ls.map (shiftLineColors ((k' : Int) - (k : Int)))) := by
  have hsh := parseLines_shift ts k ls h ((k' : Int) - (k : Int)) (by omega)
  rwa [show ((k : Int) + ((k' : Int) - (k : Int))).toNat = k' by omega] at hsh

theorem shiftLineColors_text (delta : Int) (l : Line) :
    (shiftLineColors delta l).text = l.text := rfl

theorem map_text_shift (delta : Int) (ls : List Line) :
    (ls.map (shiftLineColors delta)).map Line.text = ls.map Line.text := by
  rw [List.map_map]
  apply List.map_congr_left
  intro l _
  rfl

/-! ## Lemmas: the document invariant -/

theorem fromStr_good {s : List Char} {doc : Document} (h : Document.fromStr s = some doc) :
    goodDoc doc := by
  unfold Document.fromStr at h
  cases hP : parseLines 0 (rustLines s) with
  | none => rw [hP] at h; exact absurd h (by simp)
  | some ls =>
    rw [hP] at h
    simp only [Option.map_some', Option.some.injEq] at h
    subst h
    constructor
    · unfold cacheOk
      simp only
      rw [parseLines_texts _ _ _ hP]
      exact hP
    · intro l hl hnl
      have hmem : l.text ∈ rustLines s := by
        rw [← parseLines_texts _ _ _ hP]
        exact List.mem_map_of_mem Line.text hl
      exact (mem_rustLines s l.text hmem '\n' hnl).2 rfl

theorem edit_none_eq_fromStr (doc : Document) (txt : List Char) :
    doc.edit ⟨none, txt⟩ = Document.fromStr txt := rfl

theorem edit_good {doc doc' : Document} {ch : TextDocumentContentChangeEvent}
    (hg : goodDoc doc) (h : doc.edit ch = some doc') : goodDoc doc' := by
  obtain ⟨hc, hnl⟩ := hg
  obtain ⟨rng, txt⟩ := ch
  cases rng with
  | none =>
    rw [edit_none_eq_fromStr] at h
    exact fromStr_good h
  | some r =>
    obtain ⟨newLines, hs, _hse, hP, hstruct⟩ := edit_some_struct h
    have hPadded := paddedLines_parse hc r.stop.line
    have hsplit1 := parseLines_split r.start.line _ 0 _ hPadded
    have hsplit2 :=
      parseLines_split (r.start.line + (r.stop.line - r.start.line + 1)) _ 0 _ hPadded
    have htake_len : ((paddedLines doc r.stop.line).take r.start.line).length =
        r.start.line := by
      rw [List.length_take]
      omega
    have htake : parseLines 0
        (((paddedLines doc r.stop.line).take r.start.line).map Line.text) =
        some ((paddedLines doc r.stop.line).take r.start.line) := by
      have := hsplit1.1
      rwa [← List.map_take] at this
    have hdrop : parseLines (r.start.line + (r.stop.line - r.start.line + 1))
        (((paddedLines doc r.stop.line).drop
          (r.start.line + (r.stop.line - r.start.line + 1))).map Line.text) =
        some ((paddedLines doc r.stop.line).drop
          (r.start.line + (r.stop.line - r.start.line + 1))) := by
      have := hsplit2.2
      rwa [← List.map_drop, Nat.zero_add] at this
    have hnew : parseLines r.start.line (newLines.map Line.text) = some newLines := by
      rw [parseLines_texts _ _ _ hP]
      exact hP
    -- the (possibly shifted) tail parses at its new position
    have htail : parseLines (r.start.line + newLines.length)
        ((if ((newLines.length : Int) - ((r.stop.line - r.start.line + 1 : Nat) : Int)) = 0
          then (paddedLines doc r.stop.line).drop
            (r.start.line + (r.stop.line - r.start.line + 1))
          else ((paddedLines doc r.stop.line).drop
            (r.start.line + (r.stop.line - r.start.line + 1))).map
            (shiftLineColors ((newLines.length : Int) -
              ((r.stop.line - r.start.line + 1 : Nat) : Int)))).map Line.text) =
        some (if ((newLines.length : Int) - ((r.stop.line - r.start.line + 1 : Nat) : Int)) = 0
          then (paddedLines doc r.stop.line).drop
            (r.start.line + (r.stop.line - r.start.line + 1))
          else ((paddedLines doc r.stop.line).drop
            (r.start.line + (r.stop.line - r.start.line + 1))).map
            (shiftLineColors ((newLines.length : Int) -
              ((r.stop.line - r.start.line + 1 : Nat) : Int)))) := by
      split
      · next hz =>
        have hlen : newLines.length = r.stop.line - r.start.line + 1 := by omega
        rw [hlen]
        exact hdrop
      · next hz =>
        have hre := parseLines_reindex
          (r.start.line + (r.stop.line - r.start.line + 1))
          (r.start.line + newLines.length) hdrop
        have hcast : (((r.start.line + newLines.length : Nat)) : Int) -
            (((r.start.line + (r.stop.line - r.start.line + 1) : Nat)) : Int) =
            ((newLines.length : Int) - ((r.stop.line - r.start.line + 1 : Nat) : Int)) := by
          push_cast
          omega
        rw [hcast] at hre
        rw [map_text_shift]
        exact hre
    constructor
    · unfold cacheOk
      rw [hstruct, List.map_append, List.map_append]
      have hAB : parseLines 0
          ((((paddedLines doc r.stop.line).take r.start.line).map Line.text) ++
            (newLines.map Line.text)) =
          some ((paddedLines doc r.stop.line).take r.start.line ++ newLines) := by
        apply parseLines_append_some _ _ _ _ _ htake
        rw [List.length_map, htake_len, Nat.zero_add]
        exact hnew
      apply parseLines_append_some _ _ _ _ _ hAB
      rw [List.length_append, List.length_map, List.length_map, htake_len, Nat.zero_add]
      exact htail
    · intro l hl
      rw [hstruct] at hl
      have hpadmem : ∀ l2 ∈ paddedLines doc r.stop.line, '\n' ∉ l2.text := by
        intro l2 hl2
        rcases mem_paddedLines hl2 with hin | hemp
        · exact hnl l2 hin
        · rw [hemp]
          simp [emptyLine]
      rcases List.mem_append.mp hl with hl1 | hl2
      · rcases List.mem_append.mp hl1 with hl3 | hl4
        · exact hpadmem l ((List.take_subset _ _) hl3)
        · intro hin
          have htxt : l.text ∈ editNewTexts doc r txt := by
            rw [← parseLines_texts _ _ _ hP]
            exact List.mem_map_of_mem Line.text hl4
          rcases mem_editNewTexts doc r txt l.text htxt '\n' hin with ⟨l2, hl2, hc2⟩ | ⟨_, hne⟩
          · exact hpadmem l2 hl2 hc2
          · exact hne rfl
      · split at hl2
        · exact hpadmem l ((List.drop_subset _ _) hl2)
        · rw [List.mem_map] at hl2
          obtain ⟨l2, hl2, rfl⟩ := hl2
          rw [shiftLineColors_text]
          exact hpadmem l2 ((List.drop_subset _ _) hl2)

theorem applyEdits_good :
    ∀ (es : List TextDocumentContentChangeEvent) (doc doc' : Document),
      goodDoc doc → applyEdits doc es = some doc' → goodDoc doc' := by
  intro es
  induction es with
  | nil =>
    intro doc doc' hg h
    simp only [applyEdits, Option.some.injEq] at h
    subst h
    exact hg
  | cons c cs ih =>
    intro doc doc' hg h
    simp only [applyEdits] at h
    cases he : doc.edit c with
    | none => rw [he] at h; exact absurd h (by simp)
    | some d =>
      rw [he] at h
      exact ih d doc' (edit_good hg he) h

theorem loadAndApply_good {t : List Char} {es : List TextDocumentContentChangeEvent}
    {doc : Document} (h : loadAndApply t es = some doc) : goodDoc doc := by
  unfold loadAndApply at h
  cases hf : Document.fromStr t with
  | none => rw [hf] at h; exact absurd h (by simp)
  | some d0 =>
    rw [hf] at h
    exact applyEdits_good es d0 doc (fromStr_good hf) h

/-! ## Lemmas: full reload reproduces the cached annotations -/

theorem parse_rustLinesAux : ∀ (ls : List Line) (k : Nat),
    parseLines k (ls.map Line.text) = some ls →
    ∃ ls', parseLines k (rustLinesAux (ls.map Line.text)) = some ls' ∧
      (ls'.map Line.colors).flatten = (ls.map Line.colors).flatten := by
  intro ls
  induction ls with
  | nil => intro k _; exact ⟨[], rfl, rfl⟩
  | cons l ls ih =>
    intro k h
    simp only [List.map_cons, parseLines] at h
    cases hc : parse_line_colors (utf16Encode l.text) k with
    | none => rw [hc] at h; exact absurd h (by simp)
    | some cs =>
      cases hA : parseLines (k + 1) (ls.map Line.text) with
      | none => rw [hc, hA] at h; exact absurd h (by simp)
      | some ls2 =>
        rw [hc, hA] at h
        simp only [Option.some.injEq, List.cons.injEq] at h
        obtain ⟨hhead, htail⟩ := h
        have hcs : cs = l.colors := by rw [← hhead]
        subst htail
        cases ls2 with
        | nil =>
          by_cases ht : l.text = []
          · refine ⟨[], by simp [rustLinesAux, ht, parseLines], ?_⟩
            have hcs0 : cs = [] := by
              rw [ht, utf16Encode_nil, parse_empty] at hc
              simpa using hc.symm
            simp [← hcs, hcs0]
          · refine ⟨[l], ?_, rfl⟩
            simp only [List.map_cons, List.map_nil, rustLinesAux, if_neg ht, parseLines,
              hc, hcs]
        | cons l2 ls' =>
          obtain ⟨ls'', h1, h2⟩ := ih (k + 1) hA
          refine ⟨⟨stripCR l.text, l.colors⟩ :: ls'', ?_, ?_⟩
          · have hstrip : parse_line_colors (utf16Encode (stripCR l.text)) k =
                some l.colors := by
              rw [parse_stripCR, hc, hcs]
            rw [List.map_cons] at h1
            simp only [List.map_cons, rustLinesAux, parseLines, hstrip]
            rw [h1]
          · simp only [List.map_cons, List.flatten_cons]
            rw [h2]
            simp

theorem reload_colors {doc : Document} (hg : goodDoc doc) :
    ∃ doc2, Document.fromStr doc.toText = some doc2 ∧
      doc2.get_colors = doc.get_colors := by
  obtain ⟨hc, hnl⟩ := hg
  by_cases hnil : doc.lines = []
  · refine ⟨⟨[]⟩, ?_, ?_⟩
    · have htext : doc.toText = [] := by
        unfold Document.toText
        rw [hnil]
        rfl
      rw [htext]
      rfl
    · unfold Document.get_colors
      rw [hnil]
  · have hts_ne : doc.lines.map Line.text ≠ [] := by
      intro hmap
      exact hnil (List.map_eq_nil_iff.mp hmap)
    have hts_nl : ∀ t ∈ doc.lines.map Line.text, '\n' ∉ t := by
      intro t ht
      rw [List.mem_map] at ht
      obtain ⟨l, hl, rfl⟩ := ht
      exact hnl l hl
    have hsplit : splitLines (joinLines (doc.lines.map Line.text)) =
        doc.lines.map Line.text := splitLines_joinLines _ hts_ne hts_nl
    obtain ⟨ls', h1, h2⟩ := parse_rustLinesAux doc.lines 0 hc
    refine ⟨⟨ls'⟩, ?_, ?_⟩
    · unfold Document.fromStr Document.toText rustLines
      rw [hsplit, h1]
      rfl
    · unfold Document.get_colors
      exact h2

/-! ## Remaining helper lemmas -/

theorem parseDigits_cons_hex {u e : Nat} (h : toHexDigit u = some e) (n : Nat)
    (xs : List Nat) :
    parseDigits (n + 1) (u :: xs) =
      (parseDigits n xs).map (fun x => (e :: x.1, u :: x.2.1, x.2.2)) := by
  simp only [parseDigits, if_neg (toHexDigit_not_surrogate h), h]
  cases parseDigits n xs with
  | none => rfl
  | some y => obtain ⟨a, b, c⟩ := y; rfl

theorem getLast?_mem_self : ∀ (l : List Char) (a : Char), l.getLast? = some a → a ∈ l := by
  intro l a h
  have hne : l ≠ [] := by
    intro hn
    rw [hn] at h
    simp at h
  rw [List.getLast?_eq_getLast l hne, Option.some.injEq] at h
  rw [← h]
  exact List.getLast_mem hne

theorem stripCR_of_no_cr {p : List Char} (h : '\r' ∉ p) : stripCR p = p := by
  unfold stripCR
  rw [if_neg]
  intro hlast
  exact h (getLast?_mem_self p '\r' hlast)

theorem joinLines_rustLinesAux : ∀ ps : List (List Char), ps ≠ [] →
    (∀ p ∈ ps, '\r' ∉ p) →
    joinLines (rustLinesAux ps) = joinLines ps ∨
      joinLines ps = joinLines (rustLinesAux ps) ++ ['\n'] := by
  intro ps
  induction ps with
  | nil => intro h _; exact absurd rfl h
  | cons p ps ih =>
    intro _ hcr
    cases ps with
    | nil =>
      by_cases hp : p = []
      · left
        rw [hp]
        rfl
      · left
        simp only [rustLinesAux, if_neg hp]
    | cons q ps2 =>
      have hstrip : stripCR p = p := stripCR_of_no_cr (hcr p (by simp))
      cases hqs : ps2 with
      | nil =>
        by_cases hq : q = []
        · right
          simp only [rustLinesAux, hstrip, hq, joinLines]
        · left
          simp only [rustLinesAux, hstrip, if_neg hq]
      | cons q2 ps3 =>
        have hrec := ih (by simp) (fun x hx => hcr x (List.mem_cons_of_mem _ hx))
        rw [hqs] at hrec
        rcases hrec with hl | hr
        · left
          simp only [rustLinesAux, joinLines] at hl
          simp only [rustLinesAux, hstrip]
          simp only [joinLines]
          rw [hl]
        · right
          simp only [rustLinesAux, joinLines] at hr
          simp only [rustLinesAux, hstrip]
          simp only [joinLines]
          rw [hr]
          simp

theorem edit_congr_padded (doc : Document) (r : LspRange) (txt : List Char) :
    doc.edit ⟨some r, txt⟩ =
      (Document.mk (paddedLines doc r.stop.line)).edit ⟨some r, txt⟩ := by
  have hlen : r.stop.line + 1 ≤ (paddedLines doc r.stop.line).length := paddedLines_lt
  have hpad : paddedLines (Document.mk (paddedLines doc r.stop.line)) r.stop.line =
      paddedLines doc r.stop.line := by
    show paddedLines doc r.stop.line ++
        List.replicate (r.stop.line + 1 - (paddedLines doc r.stop.line).length) emptyLine =
      paddedLines doc r.stop.line
    rw [show r.stop.line + 1 - (paddedLines doc r.stop.line).length = 0 by omega]
    simp
  have hmerge : editNewTexts (Document.mk (paddedLines doc r.stop.line)) r txt =
      editNewTexts doc r txt := by
    unfold editNewTexts
    rw [hpad]
  unfold Document.edit
  simp only [hpad, hmerge]

/-! ## The claims -/

/-- C2: the specification says the Annotation Extractor is total — for every
valid Unicode line it returns a (possibly empty) annotation list and never
fails or panics, in particular on a `#` immediately followed by a
supplementary-plane character. The code violates this: on the line `"#😀"`
the UTF-16 unit after the `#` is the high surrogate 0xD83D, and
`char::from_u32(0xD83D).unwrap()` in the digit loop panics, which the model
renders as `none`. -/
theorem C2_extractor_surrogate_panic :
    parse_line_colors (utf16Encode ['#', '😀']) 0 = none := by
  decide

/-- C3: `utf16_to_byte_index` walks the scalars left to right counting their
UTF-16 units (1 for the BMP, 2 for supplementary planes); it returns the byte
offset of the scalar at which the cumulative UTF-16 count first equals the
given column, and the full byte length whenever the column exceeds the line's
total UTF-16 length (clamped, never an error). -/
theorem C3_utf16_to_byte_index_correct (line : List Char) (col : Nat) :
    (∀ k, k ≤ line.length → utf16Length (line.take k) = col →
      utf16_to_byte_index line col = byteLen (line.take k)) ∧
    (utf16Length line < col → utf16_to_byte_index line col = byteLen line) := by
  have h := u16ToByteAux_spec col line
  constructor
  · intro k hk he
    have hres := (h 0 0).1 k hk (by omega)
    simpa [utf16_to_byte_index] using hres
  · intro hlt
    have hres := (h 0 0).2 (by omega)
    simpa [utf16_to_byte_index] using hres

/-- Witness for C3 on the line `"a😀b"` (UTF-16 length 4, byte length 6):
column 3 lands at the scalar after the emoji (byte offset 5), and the
out-of-range column 9 is clamped to the byte length. -/
theorem C3_utf16_to_byte_index_correct_witness :
    utf16_to_byte_index ('a' :: '😀' :: 'b' :: []) 3 =
      byteLen (('a' :: '😀' :: 'b' :: []).take 2) ∧
    utf16_to_byte_index ('a' :: '😀' :: 'b' :: []) 9 =
      byteLen ('a' :: '😀' :: 'b' :: []) :=
  ⟨(C3_utf16_to_byte_index_correct ('a' :: '😀' :: 'b' :: []) 3).1 2 (by decide) (by decide),
   (C3_utf16_to_byte_index_correct ('a' :: '😀' :: 'b' :: []) 9).2 (by decide)⟩

/-- C9: `Document::edit` with an inverted range is not total: on the one-line
document `"x"` an edit with `start_line = 5`, `end_line = 0` panics (modelled
as `none`), because padding only ensures `end_line` is a valid index — the
padded length stays 1, and indexing `lines[start_line]` is out of bounds. -/
theorem C9_inverted_range_panic :
    Document.fromStr ('x' :: []) = some ⟨[⟨'x' :: [], []⟩]⟩ ∧
    (Document.mk [⟨'x' :: [], []⟩]).lines.length = 1 ∧
    (paddedLines (Document.mk [⟨'x' :: [], []⟩]) 0).length ≤ 5 ∧
    (Document.mk [⟨'x' :: [], []⟩]).edit ⟨some ⟨⟨5, 0⟩, ⟨0, 0⟩⟩, []⟩ = none := by
  refine ⟨by decide, by decide, by decide, by decide⟩

/-- C10: the server's regex-based `document_color` path is not equivalent to
the core extractor. On `"#1234567"` the regex consumes all 7 digits and
`hex_to_color` rejects length 7, so the server reports nothing, while the
core extractor falls back to a 6-digit match ending at column 7. On
`"𝄞#FF0000"` both report one match, but the server counts scalar columns
(1..8) while the core counts UTF-16 columns (2..9). -/
theorem C10_server_core_divergence :
    (server_line_colors ('#' :: '1' :: '2' :: '3' :: '4' :: '5' :: '6' :: '7' :: []) 0 =
        [] ∧
      parse_line_colors
          (utf16Encode ('#' :: '1' :: '2' :: '3' :: '4' :: '5' :: '6' :: '7' :: [])) 0 =
        some [⟨⟨⟨0, 0⟩, ⟨0, 7⟩⟩,
          ⟨(18 : ℚ) / 255, (52 : ℚ) / 255, (86 : ℚ) / 255, 1⟩⟩]) ∧
    (server_line_colors ('𝄞' :: '#' :: 'F' :: 'F' :: '0' :: '0' :: '0' :: '0' :: []) 0 =
        [⟨⟨⟨0, 1⟩, ⟨0, 8⟩⟩, ⟨1, 0, 0, 1⟩⟩] ∧
      parse_line_colors
          (utf16Encode ('𝄞' :: '#' :: 'F' :: 'F' :: '0' :: '0' :: '0' :: '0' :: [])) 0 =
        some [⟨⟨⟨0, 2⟩, ⟨0, 9⟩⟩, ⟨1, 0, 0, 1⟩⟩]) := by
  refine ⟨⟨by decide, ?_⟩, ?_, ?_⟩
  · have h : parse_line_colors
        (utf16Encode ('#' :: '1' :: '2' :: '3' :: '4' :: '5' :: '6' :: '7' :: [])) 0 =
        some [⟨⟨⟨0, 0⟩, ⟨0, 7⟩⟩,
          ⟨((18 : Nat) : ℚ) / 255, ((52 : Nat) : ℚ) / 255, ((86 : Nat) : ℚ) / 255, 1⟩⟩] :=
      rfl
    rw [h]
    norm_num
  · have h : server_line_colors
        ('𝄞' :: '#' :: 'F' :: 'F' :: '0' :: '0' :: '0' :: '0' :: []) 0 =
        [⟨⟨⟨0, 1⟩, ⟨0, 8⟩⟩,
          ⟨((255 : Nat) : ℚ) / 255, ((0 : Nat) : ℚ) / 255, ((0 : Nat) : ℚ) / 255,
            ((255 : Nat) : ℚ) / 255⟩⟩] := rfl
    rw [h]
    norm_num
  · have h : parse_line_colors
        (utf16Encode ('𝄞' :: '#' :: 'F' :: 'F' :: '0' :: '0' :: '0' :: '0' :: [])) 0 =
        some [⟨⟨⟨0, 2⟩, ⟨0, 9⟩⟩,
          ⟨((255 : Nat) : ℚ) / 255, ((0 : Nat) : ℚ) / 255, ((0 : Nat) : ℚ) / 255, 1⟩⟩] :=
      rfl
    rw [h]
    norm_num

/-- C7: every match reported by the extractor starts at the UTF-16 column of
its `#` (the reported start column indexes the `#` unit in the line's UTF-16
encoding, so multi-unit characters before the match count as 2), ends 1+6 or
1+8 units later, and carries the line index in both line fields; in
particular `"•#FF0000"` at line 0 yields exactly one annotation with range
(0,1)-(0,8) and color (1,0,0,1). -/
theorem C7_utf16_columns :
    (∀ (units : List Nat) (idx : Nat) (cis : List ColorInformation),
      parse_line_colors units idx = some cis → ∀ ci ∈ cis,
        units[ci.range.start.character]? = some 35 ∧
        (ci.range.stop.character = ci.range.start.character + 7 ∨
          ci.range.stop.character = ci.range.start.character + 9) ∧
        ci.range.start.line = idx ∧ ci.range.stop.line = idx) ∧
    parse_line_colors
        (utf16Encode ('•' :: '#' :: 'F' :: 'F' :: '0' :: '0' :: '0' :: '0' :: [])) 0 =
      some [⟨⟨⟨0, 1⟩, ⟨0, 8⟩⟩, ⟨1, 0, 0, 1⟩⟩] := by
  constructor
  · intro units idx cis h ci hci
    obtain ⟨k, hk1, hk2, hk3⟩ := scanAux_hash idx _ units 0 cis h ci hci
    have hk : ci.range.start.character = k := by omega
    refine ⟨?_, hk3, (scanAux_fields h ci hci).1, (scanAux_fields h ci hci).2⟩
    rw [hk]
    exact hk2
  · have h : parse_line_colors
        (utf16Encode ('•' :: '#' :: 'F' :: 'F' :: '0' :: '0' :: '0' :: '0' :: [])) 0 =
        some [⟨⟨⟨0, 1⟩, ⟨0, 8⟩⟩,
          ⟨((255 : Nat) : ℚ) / 255, ((0 : Nat) : ℚ) / 255, ((0 : Nat) : ℚ) / 255, 1⟩⟩] :=
      rfl
    rw [h]
    norm_num

/-- Witness for C7: the general clause applied to the `"•#FF0000"` example. -/
theorem C7_utf16_columns_witness :
    (utf16Encode ('•' :: '#' :: 'F' :: 'F' :: '0' :: '0' :: '0' :: '0' :: []))[
      (⟨⟨⟨0, 1⟩, ⟨0, 8⟩⟩, ⟨1, 0, 0, 1⟩⟩ : ColorInformation).range.start.character]? =
        some 35 ∧
    ((⟨⟨⟨0, 1⟩, ⟨0, 8⟩⟩, ⟨1, 0, 0, 1⟩⟩ : ColorInformation).range.stop.character =
        (⟨⟨⟨0, 1⟩, ⟨0, 8⟩⟩, (⟨1, 0, 0, 1⟩ : Color)⟩ :
          ColorInformation).range.start.character + 7 ∨
      (⟨⟨⟨0, 1⟩, ⟨0, 8⟩⟩, ⟨1, 0, 0, 1⟩⟩ : ColorInformation).range.stop.character =
        (⟨⟨⟨0, 1⟩, ⟨0, 8⟩⟩, (⟨1, 0, 0, 1⟩ : Color)⟩ :
          ColorInformation).range.start.character + 9) ∧
    (⟨⟨⟨0, 1⟩, ⟨0, 8⟩⟩, ⟨1, 0, 0, 1⟩⟩ : ColorInformation).range.start.line = 0 ∧
    (⟨⟨⟨0, 1⟩, ⟨0, 8⟩⟩, ⟨1, 0, 0, 1⟩⟩ : ColorInformation).range.stop.line = 0 :=
  C7_utf16_columns.1
    (utf16Encode ('•' :: '#' :: 'F' :: 'F' :: '0' :: '0' :: '0' :: '0' :: [])) 0
    [⟨⟨⟨0, 1⟩, ⟨0, 8⟩⟩, ⟨1, 0, 0, 1⟩⟩]
    (by
      have h : parse_line_colors
          (utf16Encode ('•' :: '#' :: 'F' :: 'F' :: '0' :: '0' :: '0' :: '0' :: [])) 0 =
          some [⟨⟨⟨0, 1⟩, ⟨0, 8⟩⟩,
            ⟨((255 : Nat) : ℚ) / 255, ((0 : Nat) : ℚ) / 255, ((0 : Nat) : ℚ) / 255, 1⟩⟩] :=
        rfl
      rw [h]
      norm_num)
    _ (by simp)

/-- Counterexample for C8: on the text `"a\r\nb"` loading and re-joining
yields `"a\nb"` — the `\r\n` terminator in the middle is normalized to
`\n`, which is not a single optional *trailing* terminator change, so the
round-trip claim as stated fails. -/
theorem C8_roundtrip_counterexample :
    Document.fromStr ('a' :: '\r' :: '\n' :: 'b' :: []) =
      some ⟨[⟨'a' :: [], []⟩, ⟨'b' :: [], []⟩]⟩ ∧
    (Document.mk [⟨'a' :: [], []⟩, ⟨'b' :: [], []⟩]).toText = 'a' :: '\n' :: 'b' :: [] ∧
    ('a' :: '\n' :: 'b' :: []) ≠ ('a' :: '\r' :: '\n' :: 'b' :: []) ∧
    ('a' :: '\r' :: '\n' :: 'b' :: []) ≠ ('a' :: '\n' :: 'b' :: []) ++ ['\n'] ∧
    ('a' :: '\r' :: '\n' :: 'b' :: []) ≠ ('a' :: '\n' :: 'b' :: []) ++ ['\r', '\n'] := by
  refine ⟨by decide, by decide, by decide, by decide, by decide⟩

/-- C8 (amended): for texts without carriage returns the round trip holds —
after a successful load, joining the lines with `'\n'` yields the text again
modulo one optional trailing terminator. Texts containing `"\r\n"` also have
interior terminators normalized (see the counterexample), which the claim's
wording does not allow. -/
theorem C8_roundtrip_amended (t : List Char) (doc : Document)
    (hcr : '\r' ∉ t) (h : Document.fromStr t = some doc) :
    doc.toText = t ∨ t = doc.toText ++ ['\n'] := by
  have htexts : doc.lines.map Line.text = rustLines t := by
    unfold Document.fromStr at h
    cases hP : parseLines 0 (rustLines t) with
    | none => rw [hP] at h; exact absurd h (by simp)
    | some ls =>
      rw [hP] at h
      simp only [Option.map_some', Option.some.injEq] at h
      subst h
      exact parseLines_texts _ _ _ hP
  have htoText : doc.toText = joinLines (rustLines t) := by
    unfold Document.toText
    rw [htexts]
  have hnocr : ∀ p ∈ splitLines t, '\r' ∉ p := by
    intro p hp hin
    exact hcr (mem_splitLines t p hp '\r' hin).1
  have hdisj := joinLines_rustLinesAux (splitLines t) (splitLines_ne_nil t) hnocr
  rw [joinLines_splitLines t] at hdisj
  rw [htoText]
  unfold rustLines
  exact hdisj

/-- Witness for C8 (amended) on the text `"ab\n"`. -/
theorem C8_roundtrip_amended_witness :
    (Document.mk [⟨'a' :: 'b' :: [], []⟩]).toText = ('a' :: 'b' :: '\n' :: []) ∨
    ('a' :: 'b' :: '\n' :: []) =
      (Document.mk [⟨'a' :: 'b' :: [], []⟩]).toText ++ ['\n'] :=
  C8_roundtrip_amended ('a' :: 'b' :: '\n' :: []) (Document.mk [⟨'a' :: 'b' :: [], []⟩])
    (by decide) (by decide)

/-- Counterexample for C6: the claim says no range edit whose `end_line` is at
or beyond the current last line is ever rejected or errors. But on the
document `"#"` the edit (0,1)-(2,0) inserting `"😀"` (end line 2 beyond the
last index 0) panics during re-extraction of the merged line `"#😀"` (the
extractor's surrogate `unwrap`), and on `"x"` the inverted edit (3,0)-(0,0)
(end line 0 = the last index) panics on the out-of-bounds `lines[3]`. -/
theorem C6_padding_counterexample :
    Document.fromStr ('#' :: []) = some ⟨[⟨'#' :: [], []⟩]⟩ ∧
    (Document.mk [⟨'#' :: [], []⟩]).edit ⟨some ⟨⟨0, 1⟩, ⟨2, 0⟩⟩, ['😀']⟩ = none ∧
    Document.fromStr ('x' :: []) = some ⟨[⟨'x' :: [], []⟩]⟩ ∧
    (Document.mk [⟨'x' :: [], []⟩]).edit ⟨some ⟨⟨3, 0⟩, ⟨0, 0⟩⟩, []⟩ = none := by
  refine ⟨by decide, by decide, by decide, by decide⟩

/-- C6 (amended): for a range edit whose `end_line` is at or beyond the
current last line index, `edit` behaves exactly as if the document were first
padded with empty lines until `end_line` is a valid index; out-of-range
columns are clamped by the offset translator to the line's byte length; and
such an edit with `start ≤ end` is never rejected provided the re-extraction
of the merged lines does not hit the extractor's surrogate panic — in
particular whenever every character involved is in the Basic Multilingual
Plane. (The unconditional "never errors" of the claim fails, see the
counterexample.) -/
theorem C6_padding_clamping_amended :
    (∀ (doc : Document) (r : LspRange) (txt : List Char),
      doc.lines.length ≤ r.stop.line + 1 →
        doc.edit ⟨some r, txt⟩ =
          (Document.mk (paddedLines doc r.stop.line)).edit ⟨some r, txt⟩ ∧
        (paddedLines doc r.stop.line).length = r.stop.line + 1) ∧
    (∀ (line : List Char) (col : Nat), utf16Length line < col →
      utf16_to_byte_index line col = byteLen line) ∧
    (∀ (doc : Document) (r : LspRange) (txt : List Char),
      r.start.line ≤ r.stop.line →
      (∀ l ∈ doc.lines, ∀ c ∈ l.text, c.toNat < 0x10000) →
      (∀ c ∈ txt, c.toNat < 0x10000) →
      (doc.edit ⟨some r, txt⟩).isSome) := by
  refine ⟨?_, ?_, ?_⟩
  · intro doc r txt hle
    refine ⟨edit_congr_padded doc r txt, ?_⟩
    unfold paddedLines
    rw [List.length_append, List.length_replicate]
    omega
  · intro line col hlt
    have hres := (u16ToByteAux_spec col line 0 0).2 (by omega)
    simpa [utf16_to_byte_index] using hres
  · intro doc r txt hle hdocBMP htxtBMP
    unfold Document.edit
    simp only
    have hs : r.start.line < (paddedLines doc r.stop.line).length :=
      lt_of_le_of_lt (Nat.le_of_lt_succ (Nat.lt_succ_of_le hle)) paddedLines_lt
    rw [if_pos hs]
    have hP : (parseLines r.start.line (editNewTexts doc r txt)).isSome := by
      apply parseLines_isSome
      intro t ht c hc
      rcases mem_editNewTexts doc r txt t ht c hc with ⟨l, hl, hcl⟩ | ⟨hctxt, _⟩
      · rcases mem_paddedLines hl with hin | hemp
        · exact hdocBMP l hin c hcl
        · rw [hemp] at hcl
          exact absurd hcl (by simp [emptyLine])
      · exact htxtBMP c hctxt
    cases hPp : parseLines r.start.line (editNewTexts doc r txt) with
    | none => rw [hPp] at hP; exact absurd hP (by simp)
    | some newLines =>
      have hinv : ¬r.stop.line < r.start.line := by omega
      simp [hinv]

/-- Witness for C6 (amended): the edit (0,0)-(2,0) on the one-line document
`"x"` pads to 3 lines first, the out-of-range column 5 on `"ab"` clamps to
its byte length, and the edit succeeds. -/
theorem C6_padding_clamping_amended_witness :
    ((Document.mk [⟨'x' :: [], []⟩]).edit ⟨some ⟨⟨0, 0⟩, ⟨2, 0⟩⟩, 'a' :: 'b' :: []⟩ =
        (Document.mk (paddedLines (Document.mk [⟨'x' :: [], []⟩]) 2)).edit
          ⟨some ⟨⟨0, 0⟩, ⟨2, 0⟩⟩, 'a' :: 'b' :: []⟩ ∧
      (paddedLines (Document.mk [⟨'x' :: [], []⟩]) 2).length = 3) ∧
    utf16_to_byte_index ('a' :: 'b' :: []) 5 = byteLen ('a' :: 'b' :: []) ∧
    ((Document.mk [⟨'x' :: [], []⟩]).edit
        ⟨some ⟨⟨0, 0⟩, ⟨2, 0⟩⟩, 'a' :: 'b' :: []⟩).isSome :=
  ⟨C6_padding_clamping_amended.1 (Document.mk [⟨'x' :: [], []⟩]) ⟨⟨0, 0⟩, ⟨2, 0⟩⟩
      ('a' :: 'b' :: []) (by decide),
   C6_padding_clamping_amended.2.1 ('a' :: 'b' :: []) 5 (by decide),
   C6_padding_clamping_amended.2.2 (Document.mk [⟨'x' :: [], []⟩]) ⟨⟨0, 0⟩, ⟨2, 0⟩⟩
      ('a' :: 'b' :: []) (by decide) (by decide) (by decide)⟩

/-- Counterexample for C4: the claim says a `#` followed by a run of exactly
7 hexadecimal digits is "neither an error nor skipped" — for every such line.
On the line `"#1234567😀"` the run after `#` is exactly 7 hex digits (the
next UTF-16 unit, the high surrogate 0xD83D, is not a hex digit), yet the
extractor errors: the digit loop still has an 8th free slot, reads 0xD83D
and panics in `char::from_u32(..).unwrap()` (modelled as `none`). -/
theorem C4_seven_digit_fallback_counterexample :
    utf16Encode ('#' :: '1' :: '2' :: '3' :: '4' :: '5' :: '6' :: '7' :: '😀' :: []) =
      35 :: 49 :: 50 :: 51 :: 52 :: 53 :: 54 :: 55 :: 0xD83D :: 0xDE00 :: [] ∧
    (toHexDigit 49).isSome ∧ (toHexDigit 50).isSome ∧ (toHexDigit 51).isSome ∧
    (toHexDigit 52).isSome ∧ (toHexDigit 53).isSome ∧ (toHexDigit 54).isSome ∧
    (toHexDigit 55).isSome ∧ toHexDigit 0xD83D = none ∧
    parse_line_colors
      (utf16Encode ('#' :: '1' :: '2' :: '3' :: '4' :: '5' :: '6' :: '7' :: '😀' :: []))
      0 = none := by
  refine ⟨by decide, by decide, by decide, by decide, by decide, by decide, by decide,
    by decide, by decide, by decide⟩

/-- C4 (amended): when a `#` is followed by a run of exactly 7 hexadecimal
digits and the unit after the run, if any, is not an unpaired surrogate (a
surrogate there still lands in the digit loop's 8th slot and triggers the
extractor's panic — the same slip as C2; see the counterexample), the
extractor treats the run as a 6-digit match: it emits one annotation whose
color has alpha 1, whose start column is the `#` and whose end column is
immediately after the 6th digit, and then continues the scan with the 7th
digit put back (`d7 :: rest`); such a run is neither an error nor skipped. -/
theorem C4_seven_digit_fallback
    (idx i : Nat) (d1 d2 d3 d4 d5 d6 d7 e1 e2 e3 e4 e5 e6 e7 : Nat)
    (h1 : toHexDigit d1 = some e1) (h2 : toHexDigit d2 = some e2)
    (h3 : toHexDigit d3 = some e3) (h4 : toHexDigit d4 = some e4)
    (h5 : toHexDigit d5 = some e5) (h6 : toHexDigit d6 = some e6)
    (h7 : toHexDigit d7 = some e7) (rest : List Nat)
    (hrest : rest = [] ∨ ∃ u rest2, rest = u :: rest2 ∧ toHexDigit u = none ∧
      ¬(0xD800 ≤ u ∧ u < 0xE000))
    (f f2 : Nat) (hf : 8 + rest.length < f) (hf2 : 1 + rest.length < f2) :
    scanAux idx f (35 :: d1 :: d2 :: d3 :: d4 :: d5 :: d6 :: d7 :: rest) i =
      (scanAux idx f2 (d7 :: rest) (i + 7)).map (fun cis =>
        ⟨⟨⟨idx, i⟩, ⟨idx, i + 7⟩⟩,
          ⟨((e1 * 16 + e2 : Nat) : ℚ) / 255, ((e3 * 16 + e4 : Nat) : ℚ) / 255,
           ((e5 * 16 + e6 : Nat) : ℚ) / 255, 1⟩⟩ :: cis) := by
  cases f with
  | zero => omega
  | succ g =>
    have hPD : parseDigits 8 (d1 :: d2 :: d3 :: d4 :: d5 :: d6 :: d7 :: rest) =
        some ([e1, e2, e3, e4, e5, e6, e7], [d1, d2, d3, d4, d5, d6, d7], rest) := by
      rcases hrest with rfl | ⟨u, rest2, rfl, hnone, hns⟩
      · simp [parseDigits, h1, h2, h3, h4, h5, h6, h7,
          toHexDigit_not_surrogate h1, toHexDigit_not_surrogate h2,
          toHexDigit_not_surrogate h3, toHexDigit_not_surrogate h4,
          toHexDigit_not_surrogate h5, toHexDigit_not_surrogate h6,
          toHexDigit_not_surrogate h7]
      · simp [parseDigits, h1, h2, h3, h4, h5, h6, h7, hnone, hns,
          toHexDigit_not_surrogate h1, toHexDigit_not_surrogate h2,
          toHexDigit_not_surrogate h3, toHexDigit_not_surrogate h4,
          toHexDigit_not_surrogate h5, toHexDigit_not_surrogate h6,
          toHexDigit_not_surrogate h7]
    have hfuel : scanAux idx g (d7 :: rest) (i + 7) =
        scanAux idx f2 (d7 :: rest) (i + 7) :=
      scanAux_fuel idx g f2 (d7 :: rest) (i + 7)
        (by simp only [List.length_cons]; omega)
        (by simp only [List.length_cons]; omega)
    simp only [scanAux, hPD]
    simp only [if_true]
    have hlen7 : ([e1, e2, e3, e4, e5, e6, e7] : List Nat).length = 7 := rfl
    rw [hlen7]
    rw [if_neg (show ¬(7 : Nat) < 6 by decide)]
    rw [if_pos (show (7 : Nat) = 7 from rfl)]
    rw [if_pos (show (7 : Nat) = 7 from rfl)]
    have hlast : ([d1, d2, d3, d4, d5, d6, d7] : List Nat).getLastD 0 = d7 := rfl
    rw [hlast]
    rw [show i + 1 + 6 - (1 + 6) = i from by omega]
    rw [show i + 1 + 6 = i + 7 from by omega]
    rw [hfuel]
    cases scanAux idx f2 (d7 :: rest) (i + 7) with
    | none => rfl
    | some cis => rfl

/-- Witness for C4 on the line `"#1234567"` scanned from column 0. -/
theorem C4_seven_digit_fallback_witness :
    scanAux 0 20 (35 :: 49 :: 50 :: 51 :: 52 :: 53 :: 54 :: 55 :: []) 0 =
      (scanAux 0 10 (55 :: []) (0 + 7)).map (fun cis =>
        ⟨⟨⟨0, 0⟩, ⟨0, 0 + 7⟩⟩,
          ⟨((1 * 16 + 2 : Nat) : ℚ) / 255, ((3 * 16 + 4 : Nat) : ℚ) / 255,
           ((5 * 16 + 6 : Nat) : ℚ) / 255, 1⟩⟩ :: cis) :=
  C4_seven_digit_fallback 0 0 49 50 51 52 53 54 55 1 2 3 4 5 6 7
    (by decide) (by decide) (by decide) (by decide) (by decide) (by decide) (by decide)
    [] (Or.inl rfl) 20 10 (by decide) (by decide)

/-- C1: edit/read consistency. For every initial text and every sequence of
edits (full or range replace) applied in order and completing without a
panic, the resulting document is never stale: re-running the extractor over
every line's current text at its current 0-based index reproduces the cached
lines exactly (so `get_colors` equals full per-line extraction), and fully
re-loading the document's reconstructed text yields a document with the same
annotation list. -/
theorem C1_edit_read_consistency (t : List Char)
    (es : List TextDocumentContentChangeEvent) (doc : Document)
    (h : loadAndApply t es = some doc) :
    parseLines 0 (doc.lines.map Line.text) = some doc.lines ∧
    ∃ doc2, Document.fromStr doc.toText = some doc2 ∧
      doc2.get_colors = doc.get_colors := by
  have hg := loadAndApply_good h
  exact ⟨hg.1, reload_colors hg⟩

/-- Witness for C1: load `"#FF0000"` and append a line `"#00FF00"` by a range
edit. -/
theorem C1_edit_read_consistency_witness :
    parseLines 0 ((Document.mk
      [⟨'#' :: 'F' :: 'F' :: '0' :: '0' :: '0' :: '0' :: [],
        [⟨⟨⟨0, 0⟩, ⟨0, 7⟩⟩,
          ⟨((255 : Nat) : ℚ) / 255, ((0 : Nat) : ℚ) / 255, ((0 : Nat) : ℚ) / 255, 1⟩⟩]⟩,
       ⟨'#' :: '0' :: '0' :: 'F' :: 'F' :: '0' :: '0' :: [],
        [⟨⟨⟨1, 0⟩, ⟨1, 7⟩⟩,
          ⟨((0 : Nat) : ℚ) / 255, ((255 : Nat) : ℚ) / 255, ((0 : Nat) : ℚ) / 255, 1⟩⟩]⟩]).lines.map
        Line.text) =
      some (Document.mk
      [⟨'#' :: 'F' :: 'F' :: '0' :: '0' :: '0' :: '0' :: [],
        [⟨⟨⟨0, 0⟩, ⟨0, 7⟩⟩,
          ⟨((255 : Nat) : ℚ) / 255, ((0 : Nat) : ℚ) / 255, ((0 : Nat) : ℚ) / 255, 1⟩⟩]⟩,
       ⟨'#' :: '0' :: '0' :: 'F' :: 'F' :: '0' :: '0' :: [],
        [⟨⟨⟨1, 0⟩, ⟨1, 7⟩⟩,
          ⟨((0 : Nat) : ℚ) / 255, ((255 : Nat) : ℚ) / 255, ((0 : Nat) : ℚ) / 255, 1⟩⟩]⟩]).lines ∧
    ∃ doc2, Document.fromStr (Document.mk
      [⟨'#' :: 'F' :: 'F' :: '0' :: '0' :: '0' :: '0' :: [],
        [⟨⟨⟨0, 0⟩, ⟨0, 7⟩⟩,
          ⟨((255 : Nat) : ℚ) / 255, ((0 : Nat) : ℚ) / 255, ((0 : Nat) : ℚ) / 255, 1⟩⟩]⟩,
       ⟨'#' :: '0' :: '0' :: 'F' :: 'F' :: '0' :: '0' :: [],
        [⟨⟨⟨1, 0⟩, ⟨1, 7⟩⟩,
          ⟨((0 : Nat) : ℚ) / 255, ((255 : Nat) : ℚ) / 255, ((0 : Nat) : ℚ) / 255, 1⟩⟩]⟩]).toText =
        some doc2 ∧
      doc2.get_colors = (Document.mk
      [⟨'#' :: 'F' :: 'F' :: '0' :: '0' :: '0' :: '0' :: [],
        [⟨⟨⟨0, 0⟩, ⟨0, 7⟩⟩,
          ⟨((255 : Nat) : ℚ) / 255, ((0 : Nat) : ℚ) / 255, ((0 : Nat) : ℚ) / 255, 1⟩⟩]⟩,
       ⟨'#' :: '0' :: '0' :: 'F' :: 'F' :: '0' :: '0' :: [],
        [⟨⟨⟨1, 0⟩, ⟨1, 7⟩⟩,
          ⟨((0 : Nat) : ℚ) / 255, ((255 : Nat) : ℚ) / 255, ((0 : Nat) : ℚ) / 255,
            1⟩⟩]⟩]).get_colors :=
  C1_edit_read_consistency
    ('#' :: 'F' :: 'F' :: '0' :: '0' :: '0' :: '0' :: [])
    [⟨some ⟨⟨0, 7⟩, ⟨1, 0⟩⟩,
      '\n' :: '#' :: '0' :: '0' :: 'F' :: 'F' :: '0' :: '0' :: []⟩]
    (Document.mk
      [⟨'#' :: 'F' :: 'F' :: '0' :: '0' :: '0' :: '0' :: [],
        [⟨⟨⟨0, 0⟩, ⟨0, 7⟩⟩,
          ⟨((255 : Nat) : ℚ) / 255, ((0 : Nat) : ℚ) / 255, ((0 : Nat) : ℚ) / 255, 1⟩⟩]⟩,
       ⟨'#' :: '0' :: '0' :: 'F' :: 'F' :: '0' :: '0' :: [],
        [⟨⟨⟨1, 0⟩, ⟨1, 7⟩⟩,
          ⟨((0 : Nat) : ℚ) / 255, ((255 : Nat) : ℚ) / 255, ((0 : Nat) : ℚ) / 255, 1⟩⟩]⟩])
    (by rfl)

/-- C5: frame effect of a range edit that changes the line count. If a range
edit on a cache-consistent document succeeds and changes the total number of
lines (so `delta = inserted - replaced ≠ 0`), then the suffix of the new
document after the inserted block is exactly the old suffix after the
replaced span with every cached annotation renumbered by `shiftLineColors
delta`: each annotation's start and end line numbers change by exactly
`delta` while its start/end columns and its color value are unchanged, and
the line texts are unchanged. In particular inserting `k` extra lines before
a line shifts every annotation at or after it by exactly `+k`. -/
theorem C5_line_shift_frame {doc doc' : Document} {r : LspRange} {txt : List Char}
    (hca : cacheOk doc) (h : doc.edit ⟨some r, txt⟩ = some doc')
    (hne : doc'.lines.length ≠ (paddedLines doc r.stop.line).length) :
    ∃ (inserted : Nat) (delta : Int),
      delta = (inserted : Int) - ((r.stop.line - r.start.line + 1 : Nat) : Int) ∧
      doc'.lines.length + (r.stop.line - r.start.line + 1) =
        (paddedLines doc r.stop.line).length + inserted ∧
      delta ≠ 0 ∧
      doc'.lines.drop (r.start.line + inserted) =
        ((paddedLines doc r.stop.line).drop
          (r.start.line + (r.stop.line - r.start.line + 1))).map (shiftLineColors delta) ∧
      (∀ l ∈ (paddedLines doc r.stop.line).drop
          (r.start.line + (r.stop.line - r.start.line + 1)),
        (shiftLineColors delta l).text = l.text) ∧
      (∀ (j : Nat) (hj : j < ((paddedLines doc r.stop.line).drop
          (r.start.line + (r.stop.line - r.start.line + 1))).length),
        ∀ ci ∈ (((paddedLines doc r.stop.line).drop
            (r.start.line + (r.stop.line - r.start.line + 1))).get ⟨j, hj⟩).colors,
          ((shiftColor delta ci).range.start.line : Int) =
            (ci.range.start.line : Int) + delta ∧
          ((shiftColor delta ci).range.stop.line : Int) =
            (ci.range.stop.line : Int) + delta ∧
          (shiftColor delta ci).range.start.character = ci.range.start.character ∧
          (shiftColor delta ci).range.stop.character = ci.range.stop.character ∧
          (shiftColor delta ci).color = ci.color) := by
  obtain ⟨newLines, hs, hse, hP, hstruct⟩ := edit_some_struct h
  have hPadded := paddedLines_parse hca r.stop.line
  have hdrop : parseLines (r.start.line + (r.stop.line - r.start.line + 1))
      (((paddedLines doc r.stop.line).drop
        (r.start.line + (r.stop.line - r.start.line + 1))).map Line.text) =
      some ((paddedLines doc r.stop.line).drop
        (r.start.line + (r.stop.line - r.start.line + 1))) := by
    have hsp := (parseLines_split (r.start.line + (r.stop.line - r.start.line + 1))
      _ 0 _ hPadded).2
    rwa [← List.map_drop, Nat.zero_add] at hsp
  have htake_len : ((paddedLines doc r.stop.line).take r.start.line).length =
      r.start.line := by
    rw [List.length_take]
    omega
  have hspanle : r.start.line + (r.stop.line - r.start.line + 1) ≤
      (paddedLines doc r.stop.line).length := by
    have hlt : r.stop.line < (paddedLines doc r.stop.line).length := paddedLines_lt
    omega
  by_cases hz : ((newLines.length : Int) -
      ((r.stop.line - r.start.line + 1 : Nat) : Int)) = 0
  · exfalso
    apply hne
    rw [hstruct, if_pos hz]
    simp only [List.length_append, htake_len, List.length_drop]
    omega
  · refine ⟨newLines.length,
      (newLines.length : Int) - ((r.stop.line - r.start.line + 1 : Nat) : Int),
      rfl, ?_, hz, ?_, ?_, ?_⟩
    · rw [hstruct, if_neg hz]
      simp only [List.length_append, htake_len, List.length_map, List.length_drop]
      omega
    · rw [hstruct, if_neg hz]
      have hlenAB : ((paddedLines doc r.stop.line).take r.start.line ++ newLines).length =
          r.start.line + newLines.length := by
        rw [List.length_append, htake_len]
      rw [show ((paddedLines doc r.stop.line).take r.start.line ++ newLines ++
          ((paddedLines doc r.stop.line).drop
            (r.start.line + (r.stop.line - r.start.line + 1))).map
            (shiftLineColors ((newLines.length : Int) -
              ((r.stop.line - r.start.line + 1 : Nat) : Int)))) =
          (((paddedLines doc r.stop.line).take r.start.line ++ newLines) ++
          ((paddedLines doc r.stop.line).drop
            (r.start.line + (r.stop.line - r.start.line + 1))).map
            (shiftLineColors ((newLines.length : Int) -
              ((r.stop.line - r.start.line + 1 : Nat) : Int)))) from rfl]
      rw [← hlenAB, List.drop_left]
    · intro l _
      rfl
    · intro j hj ci hci
      have hfields := parseLines_fields _ _ _ hdrop j hj ci hci
      refine ⟨?_, ?_, rfl, rfl, rfl⟩
      · simp only [shiftColor]
        omega
      · simp only [shiftColor]
        omega

/-- Witness for C5: inserting a line break at (0,1) into the two-line
document `"a\\n#00FF00"` shifts the annotation on the second line from line 1
to line 2 with unchanged columns and color. -/
theorem C5_line_shift_frame_witness :
    ∃ (inserted : Nat) (delta : Int),
      delta = (inserted : Int) - ((1 : Nat) : Int) ∧
      3 + 1 = 2 + inserted ∧
      delta ≠ 0 ∧
      ([⟨'a' :: [], []⟩, ⟨[], []⟩, (⟨'#' :: '0' :: '0' :: 'F' :: 'F' :: '0' :: '0' :: [], [⟨⟨⟨2, 0⟩, ⟨2, 7⟩⟩, ⟨((0 : Nat) : ℚ) / 255, ((255 : Nat) : ℚ) / 255, ((0 : Nat) : ℚ) / 255, 1⟩⟩]⟩ : Line)] : List Line).drop (0 + inserted) =
        ([(⟨'#' :: '0' :: '0' :: 'F' :: 'F' :: '0' :: '0' :: [], [⟨⟨⟨1, 0⟩, ⟨1, 7⟩⟩, ⟨((0 : Nat) : ℚ) / 255, ((255 : Nat) : ℚ) / 255, ((0 : Nat) : ℚ) / 255, 1⟩⟩]⟩ : Line)] : List Line).map (shiftLineColors delta) ∧
      (∀ l ∈ ([(⟨'#' :: '0' :: '0' :: 'F' :: 'F' :: '0' :: '0' :: [], [⟨⟨⟨1, 0⟩, ⟨1, 7⟩⟩, ⟨((0 : Nat) : ℚ) / 255, ((255 : Nat) : ℚ) / 255, ((0 : Nat) : ℚ) / 255, 1⟩⟩]⟩ : Line)] : List Line), (shiftLineColors delta l).text = l.text) ∧
      (∀ (j : Nat) (hj : j < ([(⟨'#' :: '0' :: '0' :: 'F' :: 'F' :: '0' :: '0' :: [], [⟨⟨⟨1, 0⟩, ⟨1, 7⟩⟩, ⟨((0 : Nat) : ℚ) / 255, ((255 : Nat) : ℚ) / 255, ((0 : Nat) : ℚ) / 255, 1⟩⟩]⟩ : Line)] : List Line).length),
        ∀ ci ∈ (([(⟨'#' :: '0' :: '0' :: 'F' :: 'F' :: '0' :: '0' :: [], [⟨⟨⟨1, 0⟩, ⟨1, 7⟩⟩, ⟨((0 : Nat) : ℚ) / 255, ((255 : Nat) : ℚ) / 255, ((0 : Nat) : ℚ) / 255, 1⟩⟩]⟩ : Line)] : List Line).get ⟨j, hj⟩).colors,
          ((shiftColor delta ci).range.start.line : Int) =
            (ci.range.start.line : Int) + delta ∧
          ((shiftColor delta ci).range.stop.line : Int) =
            (ci.range.stop.line : Int) + delta ∧
          (shiftColor delta ci).range.start.character = ci.range.start.character ∧
          (shiftColor delta ci).range.stop.character = ci.range.stop.character ∧
          (shiftColor delta ci).color = ci.color) :=
  @C5_line_shift_frame (Document.mk [⟨'a' :: [], []⟩, ⟨'#' :: '0' :: '0' :: 'F' :: 'F' :: '0' :: '0' :: [], [⟨⟨⟨1, 0⟩, ⟨1, 7⟩⟩, ⟨((0 : Nat) : ℚ) / 255, ((255 : Nat) : ℚ) / 255, ((0 : Nat) : ℚ) / 255, 1⟩⟩]⟩]) (Document.mk [⟨'a' :: [], []⟩, ⟨[], []⟩, ⟨'#' :: '0' :: '0' :: 'F' :: 'F' :: '0' :: '0' :: [], [⟨⟨⟨2, 0⟩, ⟨2, 7⟩⟩, ⟨((0 : Nat) : ℚ) / 255, ((255 : Nat) : ℚ) / 255, ((0 : Nat) : ℚ) / 255, 1⟩⟩]⟩]) ⟨⟨0, 1⟩, ⟨0, 1⟩⟩ ('\n' :: [])
    (by rfl) (by rfl) (by decide)

end ChromaLs
